import Mathlib

/-!
Verification development for the `multisearch` Aho–Corasick search trie
(`api/ahocorasick`, Go).  The Go code is embedded shallowly:

* Every `*SearchTrie` value is an arena address (`Nat`); the arena lives in
  an `STrie` state.  Go maps (`children`, `ilps`, `ot`) are reference
  values, so each node record carries a `mapsAt` address naming the cell
  that holds its maps.  For heap-allocated nodes `mapsAt` is the node's own
  address; a *value copy* of a node (Go methods `AddSearchTerm` and
  `Search` have value receivers) is a fresh record that keeps the original
  `mapsAt`, exactly mirroring how a Go struct copy shares map references
  while having a distinct address and private `isWord`/`lps` fields.
* `nil` pointers are `Option.none`; ids coincide with arena addresses
  (Go's global `id` counter is only ever used as a unique map key).
* Loops that walk failure chains or the inverse-failure graph are fueled
  and return `none` when the fuel runs out; the Go originals have no
  termination guard at all.
* Go map iteration order is determinized to insertion order (association
  lists); the claims under study are insensitive to that order.
* A rune stream (`io.RuneReader`) is a list of `Except` read results,
  each success carrying the decoded character and its encoded width.
-/

namespace Multisearch

/-- One `SearchTrie` record: edge character, word marker, root pointer,
longest-proper-suffix pointer (`nil` = `none`), and the address of the cell
holding this value's `children`/`ilps`/`ot` maps. -/
structure Node where
  char : Char
  isWord : Bool
  rootA : Nat
  lps : Option Nat
  mapsAt : Nat
  deriving Repr, DecidableEq, Inhabited

/-- The arena: node records plus one `children`/`ilps`/`ot` map cell per
allocated record (cells of value copies exist but are shadowed by
`mapsAt`). -/
structure STrie where
  nodes : List Node
  chMap : List (List (Char × Nat))
  ilMap : List (List Nat)
  otMap : List (List String)
  deriving Repr, DecidableEq, Inhabited

def STrie.node (st : STrie) (a : Nat) : Node := st.nodes.getD a default

def STrie.chCell (st : STrie) (a : Nat) : List (Char × Nat) :=
  st.chMap.getD (st.node a).mapsAt []

def STrie.ilCell (st : STrie) (a : Nat) : List Nat :=
  st.ilMap.getD (st.node a).mapsAt []

def STrie.otCell (st : STrie) (a : Nat) : List String :=
  st.otMap.getD (st.node a).mapsAt []

/-- Association-list lookup for a `children` map. -/
def lookupA (l : List (Char × Nat)) (c : Char) : Option Nat :=
  (l.find? (fun p => p.1 == c)).map (fun p => p.2)

/-- Association-list insert-or-replace for a `children` map. -/
def upsertA : List (Char × Nat) → Char → Nat → List (Char × Nat)
  | [], c, v => [(c, v)]
  | p :: ps, c, v => if p.1 == c then (c, v) :: ps else p :: upsertA ps c v

/-- Set-semantics insert for an `ilps` map (keys are unique ids). -/
def insertSetN (l : List Nat) (x : Nat) : List Nat :=
  if x ∈ l then l else l ++ [x]

/-- Set-semantics insert for an `ot` map. -/
def insertSetS (l : List String) (x : String) : List String :=
  if x ∈ l then l else l ++ [x]

def STrie.setNode (st : STrie) (a : Nat) (n : Node) : STrie :=
  { st with nodes := st.nodes.set a n }

def STrie.putCh (st : STrie) (a : Nat) (c : Char) (v : Nat) : STrie :=
  { st with chMap := st.chMap.set (st.node a).mapsAt (upsertA (st.chCell a) c v) }

def STrie.putIl (st : STrie) (a : Nat) (x : Nat) : STrie :=
  { st with ilMap := st.ilMap.set (st.node a).mapsAt (insertSetN (st.ilCell a) x) }

def STrie.delIl (st : STrie) (a : Nat) (x : Nat) : STrie :=
  { st with ilMap := st.ilMap.set (st.node a).mapsAt ((st.ilCell a).filter (fun y => y ≠ x)) }

def STrie.putOt (st : STrie) (a : Nat) (t : String) : STrie :=
  { st with otMap := st.otMap.set (st.node a).mapsAt (insertSetS (st.otCell a) t) }

def STrie.setLps (st : STrie) (a : Nat) (m : Nat) : STrie :=
  st.setNode a { st.node a with lps := some m }

def STrie.setWord (st : STrie) (a : Nat) : STrie :=
  st.setNode a { st.node a with isWord := true }

/-- Go `s.root`. -/
def STrie.rootOf (st : STrie) (a : Nat) : Nat := (st.node a).rootA

/-- Go `s.isRoot()`: pointer comparison `s == s.root`. -/
def STrie.isRootN (st : STrie) (a : Nat) : Bool := a == st.rootOf a

/-- Go `s.children[char]` (missing key gives `nil`). -/
def STrie.getCh (st : STrie) (a : Nat) (c : Char) : Option Nat :=
  lookupA (st.chCell a) c

/-- Go `s.getChild(char)`: the child, or the root when absent. -/
def STrie.getChild (st : STrie) (a : Nat) (c : Char) : Nat :=
  (st.getCh a c).getD (st.rootOf a)

/-- Go `s.failureFn()`: `s.lps`, or the root when `nil`. -/
def STrie.failureFn (st : STrie) (a : Nat) : Nat :=
  (st.node a).lps.getD (st.rootOf a)

/-- Go `for k := range mp.ot { np.ot[k] = true }`, over a snapshot list. -/
def otUnionList (np : Nat) : STrie → List String → STrie
  | st, [] => st
  | st, t :: ts => otUnionList np (st.putOt np t) ts

def otUnion (st : STrie) (np mp : Nat) : STrie :=
  otUnionList np st (st.otCell mp)

/-- The unconditional loop inside Go `completeFailureFn`:
`for { m = m.failureFn(); mp = m.getChild(char); if m.isRoot() || !mp.isRoot() { break } }`.
Returns the final `mp`; `none` when the fuel is exhausted. -/
def cffLoop (st : STrie) (c : Char) : Nat → Nat → Option Nat
  | 0, _ => none
  | fuel + 1, m =>
    let m' := st.failureFn m
    let mp := st.getChild m' c
    if st.isRootN m' || !(st.isRootN mp) then some mp else cffLoop st c fuel m'

/-- Go `(s *SearchTrie) completeFailureFn(char)`. -/
def completeFailureFn (st : STrie) (a : Nat) (c : Char) (fuel : Nat) : Option STrie :=
  if st.isRootN a then some st
  else
    let np := st.getChild a c
    match cffLoop st c fuel a with
    | none => none
    | some mp =>
      let st1 := st.setLps np mp
      some (otUnion st1 np mp)

/-- Go `(s *SearchTrie) completeInverseFn(np, char)`: walks `y.ilps`
(snapshot); nodes with a `char` child are re-linked to `np`, the rest are
recursed into.  Fuel is spent per processed node (structural recursion, so
concrete runs reduce inside the kernel). -/
def cifGo (c : Char) (np : Nat) : Nat → STrie → List Nat → Option STrie
  | _, st, [] => some st
  | 0, _, _ :: _ => none
  | fuel + 1, st, x :: xs =>
    match st.getCh x c with
    | some xp =>
      let st1 := st.delIl (st.failureFn xp) xp
      let st2 := st1.setLps xp np
      let st3 := st2.putIl np xp
      cifGo c np fuel st3 xs
    | none =>
      match cifGo c np fuel st (st.ilCell x) with
      | none => none
      | some st' => cifGo c np fuel st' xs

def completeInverseFn (st : STrie) (y np : Nat) (c : Char) (fuel : Nat) : Option STrie :=
  cifGo c np fuel st (st.ilCell y)

/-- Go `(s *SearchTrie) enterOutput(str)` as a depth-first worklist:
record the word at the head node and push its inverse-failure links in
front, which visits exactly the nodes the Go recursion visits, in the same
order (the source has no termination guard, hence the fuel). -/
def eoGo : Nat → STrie → List Nat → String → Option STrie
  | _, st, [], _ => some st
  | 0, _, _ :: _, _ => none
  | fuel + 1, st, a :: rest, t =>
    let st1 := st.putOt a t
    eoGo fuel st1 (st1.ilCell a ++ rest) t

/-- Go `(s *SearchTrie) enterOutput(str)` entry point. -/
def enterOutput (st : STrie) (a : Nat) (t : String) (fuel : Nat) : Option STrie :=
  eoGo fuel st [a] t

def allocNode (st : STrie) (n : Node) : STrie :=
  ⟨st.nodes ++ [n], st.chMap ++ [[]], st.ilMap ++ [[]], st.otMap ++ [[]]⟩

/-- Go `(s *SearchTrie) enterChild(char)`: allocate the child, register it,
complete its failure function immediately, record the inverse link, and
re-link pre-existing nodes. -/
def enterChild (st : STrie) (a : Nat) (c : Char) (fuel : Nat) : Option (STrie × Nat) :=
  let newA := st.nodes.length
  let child : Node := ⟨c, false, st.rootOf a, none, newA⟩
  let st0 := allocNode st child
  let st1 := st0.putCh a c newA
  match completeFailureFn st1 a c fuel with
  | none => none
  | some st2 =>
    let st3 := match (st2.node newA).lps with
      | some t => st2.putIl t newA
      | none => st2
    match completeInverseFn st3 a newA c fuel with
    | none => none
    | some st4 => some (st4, newA)

/-- The character walk of Go `(s *SearchTrie) enterInTrie(str)`. -/
def eitGo (fuel : Nat) (t : String) : STrie → Nat → List Char → Option STrie
  | st, cur, [] =>
    let st1 := st.setWord cur
    enterOutput st1 cur t fuel
  | st, cur, c :: cs =>
    let nx := st.getChild cur c
    if st.isRootN nx then
      match enterChild st cur c fuel with
      | none => none
      | some (st1, ch) => eitGo fuel t st1 ch cs
    else eitGo fuel t st nx cs

def enterInTrie (st : STrie) (a : Nat) (t : String) (fuel : Nat) : Option STrie :=
  eitGo fuel t st a t.data

def buildTrie (st : STrie) (a : Nat) : List String → Nat → Option STrie
  | [], _ => some st
  | t :: ts, fuel =>
    match enterInTrie st a t fuel with
    | none => none
    | some st' => buildTrie st' a ts fuel

/-- One dequeued node of Go `buildFailureFn`: run `completeFailureFn` for
each child (snapshot) and collect the children to enqueue. -/
def bffProcess (a : Nat) (fuel : Nat) : STrie → List (Char × Nat) → Option (STrie × List Nat)
  | st, [] => some (st, [])
  | st, (c, ch) :: rest =>
    match completeFailureFn st a c fuel with
    | none => none
    | some st' =>
      match bffProcess a fuel st' rest with
      | none => none
      | some (st'', pushed) => some (st'', ch :: pushed)

/-- The breadth-first queue of Go `buildFailureFn`. -/
def bffQueue : Nat → STrie → List Nat → Option STrie
  | _, st, [] => some st
  | 0, _, _ :: _ => none
  | fuel + 1, st, a :: q =>
    match bffProcess a (fuel + 1) st (st.chCell a) with
    | none => none
    | some (st', pushed) => bffQueue fuel st' (q ++ pushed)

def buildFailureFn (st : STrie) (a : Nat) (fuel : Nat) : Option STrie :=
  bffQueue fuel st ((st.chCell a).map (fun p => p.2))

def rootNode : Node := ⟨Char.ofNat 0, false, 0, none, 0⟩

def emptyTrie : STrie := ⟨[rootNode], [[]], [[]], [[]]⟩

/-- Go `New(searchStrings)`. -/
def New (strs : List String) (fuel : Nat) : Option STrie :=
  match buildTrie emptyTrie 0 strs fuel with
  | none => none
  | some st => buildFailureFn st 0 fuel

/-- Go `(s SearchTrie) AddSearchTerm(searchTerm)`: the receiver is a value
copy of the root record (sharing the root's maps through `mapsAt`), and
`enterInTrie` runs on that copy. -/
def AddSearchTerm (st : STrie) (t : String) (fuel : Nat) : Option STrie :=
  let copyA := st.nodes.length
  let st0 := allocNode st (st.node 0)
  enterInTrie st0 copyA t fuel

/-- Go `api.Match`. -/
structure Match where
  Term : String
  Location : Int × Int
  deriving Repr, DecidableEq

/-- The inner loop of Go `Search`:
`for !n.isRoot() && n.children[char] == nil { n = n.failureFn() }`. -/
def sWhile (st : STrie) (c : Char) : Nat → Nat → Option Nat
  | fuel, n =>
    if !(st.isRootN n) && (st.getCh n c).isNone then
      match fuel with
      | 0 => none
      | f + 1 => sWhile st c f (st.failureFn n)
    else some n

/-- The read loop of Go `Search`: any read error breaks the loop and closes
the channel; on success the offset advances by the rune's width before the
cursor moves and the cursor node's `ot` entries are emitted. -/
def sGo {ε : Type} (st : STrie) (fuel : Nat) :
    Nat → Nat → List (Except ε (Char × Nat)) → Option (List Match)
  | _, _, [] => some []
  | _, _, .error _ :: _ => some []
  | n, idx, .ok (c, w) :: rest =>
    let idx1 := idx + w
    match sWhile st c fuel n with
    | none => none
    | some n1 =>
      let n2 := st.getChild n1 c
      let ms := (st.otCell n2).map (fun t =>
        ⟨t, ((idx1 : Int) - (t.utf8ByteSize : Int), (idx1 : Int))⟩)
      match sGo st fuel n2 idx1 rest with
      | none => none
      | some tail => some (ms ++ tail)

/-- Go `(s SearchTrie) Search(r)`: the receiver is again a value copy of
the root record; the cursor starts there. -/
def Search {ε : Type} (st : STrie) (fuel : Nat)
    (input : List (Except ε (Char × Nat))) : Option (List Match) :=
  let copyA := st.nodes.length
  let st0 := allocNode st (st.node 0)
  sGo st0 fuel copyA 0 input

/-- A clean in-memory rune stream (as produced by `strings.NewReader`):
every read succeeds with the rune's UTF-8 width until exhaustion. -/
def okStream (s : String) : List (Except Unit (Char × Nat)) :=
  s.data.map (fun c => .ok (c, c.utf8Size))

/-- State-passing variant of the read loop `sGo`: the automaton state is
threaded explicitly through every consumed character, so the frame
property of `Search` (searching never mutates the trie) becomes a theorem
about the returned state instead of a typing artifact. -/
def sGoS {ε : Type} (st : STrie) (fuel : Nat) :
    Nat → Nat → List (Except ε (Char × Nat)) → Option (STrie × List Match)
  | _, _, [] => some (st, [])
  | _, _, .error _ :: _ => some (st, [])
  | n, idx, .ok (c, w) :: rest =>
    let idx1 := idx + w
    match sWhile st c fuel n with
    | none => none
    | some n1 =>
      let n2 := st.getChild n1 c
      let ms := (st.otCell n2).map (fun t =>
        ⟨t, ((idx1 : Int) - (t.utf8ByteSize : Int), (idx1 : Int))⟩)
      match sGoS st fuel n2 idx1 rest with
      | none => none
      | some (st', tail) => some (st', ms ++ tail)

/-- State-passing variant of `Search` (same receiver-copy allocation). -/
def SearchS {ε : Type} (st : STrie) (fuel : Nat)
    (input : List (Except ε (Char × Nat))) : Option (STrie × List Match) :=
  let copyA := st.nodes.length
  let st0 := allocNode st (st.node 0)
  sGoS st0 fuel copyA 0 input

/-- The successfully read items before the first read error (what `Search`
actually consumes: the Go loop breaks on the first non-nil error). -/
def oksBefore {ε : Type} : List (Except ε (Char × Nat)) → List (Char × Nat)
  | [] => []
  | .ok x :: r => x :: oksBefore r
  | .error _ :: _ => []

/-- Cumulative offsets after each successfully consumed character, starting
from `idx` (the values Go's `index` takes inside the read loop). -/
def cumOffsets {ε : Type} : Nat → List (Except ε (Char × Nat)) → List Nat
  | _, [] => []
  | _, .error _ :: _ => []
  | idx, .ok (_, w) :: r => (idx + w) :: cumOffsets (idx + w) r

/-- The match list an automaton whose only term is `""` produces: one empty
match per consumed character, located at the cumulative offset after that
character. -/
def emptyMatches : Nat → List (Char × Nat) → List Match
  | _, [] => []
  | idx, (_, w) :: r =>
    ⟨"", (((idx + w : Nat) : Int), ((idx + w : Nat) : Int))⟩ :: emptyMatches (idx + w) r

/-! Concrete automata used by the claim theorems.  Each is the literal
value of a `New`/`AddSearchTerm` run; the bridging equations
(`New … = some …`) are part of the corresponding theorems. -/

/-- `New(["b"])`. -/
def trieB : STrie :=
  ⟨[rootNode, ⟨'b', true, 0, none, 1⟩],
   [[('b', 1)], []], [[], []], [[], ["b"]]⟩

/-- `New(["b"])` after `AddSearchTerm("")` (the value-receiver copy of the
root sits at address 2; the root itself was never marked as a word). -/
def trieBAddEmpty : STrie :=
  ⟨[rootNode, ⟨'b', true, 0, none, 1⟩, ⟨Char.ofNat 0, true, 0, none, 0⟩],
   [[('b', 1)], [], []], [[], [], []], [[""], ["b"], []]⟩

/-- The state reached inside `AddSearchTerm(trieB, "a")` just before
`enterOutput` runs: the new node 3 carries a self failure link and sits in
its own inverse-failure set, because `completeFailureFn` ran with the
value-receiver copy (address 2) as parent, which is not the root by
pointer comparison. -/
def poisonedState : STrie :=
  ⟨[rootNode, ⟨'b', true, 0, none, 1⟩, rootNode, ⟨'a', true, 0, some 3, 3⟩],
   [[('b', 1), ('a', 3)], [], [], []],
   [[], [], [], [3]],
   [[], ["b"], [], []]⟩

/-- `New(["a","can"])`. -/
def trieAcan : STrie :=
  ⟨[rootNode,
    ⟨'a', true, 0, none, 1⟩,
    ⟨'c', false, 0, none, 2⟩,
    ⟨'a', false, 0, some 1, 3⟩,
    ⟨'n', true, 0, some 0, 4⟩],
   [[('a', 1), ('c', 2)], [], [('a', 3)], [('n', 4)], []],
   [[4], [3], [], [], []],
   [[], ["a"], [], ["a"], ["can"]]⟩

/-- `New(["a","can"])` after `AddSearchTerm("an")` (address 5 is the spent
value-receiver copy; node 6 is the new "an" node). -/
def trieAcanAn : STrie :=
  ⟨[rootNode,
    ⟨'a', true, 0, none, 1⟩,
    ⟨'c', false, 0, none, 2⟩,
    ⟨'a', false, 0, some 1, 3⟩,
    ⟨'n', true, 0, some 6, 4⟩,
    rootNode,
    ⟨'n', true, 0, some 0, 6⟩],
   [[('a', 1), ('c', 2)], [('n', 6)], [('a', 3)], [('n', 4)], [], [], []],
   [[6], [3], [], [], [], [], [4]],
   [[], ["a"], [], ["a"], ["can", "an"], [], ["an"]]⟩

/-- `New(["bcx","c"])`.  Note the stale inverse links: nodes 2 ("bc") and
3 ("bcx") are still recorded in the root's `ilps` although the second
build pass re-pointed node 2's failure link at node 4 ("c"). -/
def trieBcxC : STrie :=
  ⟨[rootNode,
    ⟨'b', false, 0, none, 1⟩,
    ⟨'c', false, 0, some 4, 2⟩,
    ⟨'x', true, 0, some 0, 3⟩,
    ⟨'c', true, 0, none, 4⟩],
   [[('b', 1), ('c', 4)], [('c', 2)], [('x', 3)], [], []],
   [[2, 3], [], [], [], []],
   [[], [], ["c"], ["bcx"], ["c"]]⟩

/-- `New(["bcx","c"])` after `AddSearchTerm("cx")`: node 6 is the new "cx"
node; node 3 ("bcx") was *not* re-linked to it (its failure link is still
the root) because node 2 ("bc") is missing from node 4's `ilps`. -/
def trieBcxCincr : STrie :=
  ⟨[rootNode,
    ⟨'b', false, 0, none, 1⟩,
    ⟨'c', false, 0, some 4, 2⟩,
    ⟨'x', true, 0, some 0, 3⟩,
    ⟨'c', true, 0, none, 4⟩,
    rootNode,
    ⟨'x', true, 0, some 0, 6⟩],
   [[('b', 1), ('c', 4)], [('c', 2)], [('x', 3)], [], [('x', 6)], [], []],
   [[2, 3, 6], [], [], [], [], [], []],
   [[], [], ["c"], ["bcx"], ["c"], [], ["cx"]]⟩

/-- `New(["bcx","c","cx"])`: the batch build, whose second pass correctly
links node 3 ("bcx") to node 5 ("cx") and propagates "cx" into its output
set. -/
def trieBcxCcx : STrie :=
  ⟨[rootNode,
    ⟨'b', false, 0, none, 1⟩,
    ⟨'c', false, 0, some 4, 2⟩,
    ⟨'x', true, 0, some 5, 3⟩,
    ⟨'c', true, 0, none, 4⟩,
    ⟨'x', true, 0, some 0, 5⟩],
   [[('b', 1), ('c', 4)], [('c', 2)], [('x', 3)], [], [('x', 5)], []],
   [[2, 3, 5], [], [], [], [], []],
   [[], [], ["c"], ["bcx", "cx"], ["c"], ["cx"]]⟩

/-- `New(["a",""])`: the empty term marks the root and lands in the root's
output set, but is never propagated into node 1's output set. -/
def trieAEmpty : STrie :=
  ⟨[⟨Char.ofNat 0, true, 0, none, 0⟩, ⟨'a', true, 0, none, 1⟩],
   [[('a', 1)], []], [[], []], [[""], ["a"]]⟩

/-- `New(["bc","c"])`: after the breadth-first pass node 2 ("bc") fails to
node 3 ("c"), yet node 2 is still recorded in the root's `ilps` and absent
from node 3's. -/
def trieBcC : STrie :=
  ⟨[rootNode,
    ⟨'b', false, 0, none, 1⟩,
    ⟨'c', true, 0, some 3, 2⟩,
    ⟨'c', true, 0, none, 3⟩],
   [[('b', 1), ('c', 3)], [('c', 2)], [], []],
   [[2], [], [], []],
   [[], [], ["bc", "c"], ["c"]]⟩

/-- `New([""])`: a lone root marked as a word with `""` in its output set. -/
def trieEmptyOnly : STrie :=
  ⟨[⟨Char.ofNat 0, true, 0, none, 0⟩], [[]], [[]], [[""]]⟩

/-- The state `Search trieEmptyOnly` actually walks: the arena extended
with the value-receiver copy of the root (address 1). -/
def emptyOnlySearchState : STrie := allocNode trieEmptyOnly (trieEmptyOnly.node 0)

/-- A chain of incremental insertions (`AddSearchTerm` calls in order). -/
def runAdds (st : STrie) : List String → Nat → Option STrie
  | [], _ => some st
  | t :: ts, fuel =>
    match AddSearchTerm st t fuel with
    | none => none
    | some st' => runAdds st' ts fuel

/-- A heap-allocated node: its address is in bounds and its maps live in
its own cell (a Go struct copy of a node has a fresh address but keeps the
original's map references, so it is not `RealN`). -/
def RealN (st : STrie) (a : Nat) : Prop :=
  a < st.nodes.length ∧ (st.node a).mapsAt = a

/-- Raw well-formedness of an automaton arena: every child or inverse-link
entry anywhere in the map cells names a heap-allocated non-root node,
every record points back at the root at address 0, the root is present
with its own cell and a nil failure link, and every non-nil failure link
names a heap-allocated node. -/
structure Wf (st : STrie) : Prop where
  chRaw : ∀ j p, p ∈ st.chMap.getD j [] → RealN st p.2 ∧ p.2 ≠ 0
  ilRaw : ∀ j x, x ∈ st.ilMap.getD j [] → RealN st x ∧ x ≠ 0
  rootA0 : ∀ a, (st.node a).rootA = 0
  rootLen : 0 < st.nodes.length
  rootMaps : (st.node 0).mapsAt = 0
  rootLps : (st.node 0).lps = none
  lpsReal : ∀ a m, (st.node a).lps = some m → RealN st m
  chLen : st.chMap.length = st.nodes.length
  ilLen : st.ilMap.length = st.nodes.length

/-- The corrupted shape `AddSearchTerm` leaves behind when its
value-receiver copy of the root creates a child: the new node is its own
failure target and sits in its own inverse-failure set, with an empty
children cell of its own and every record still pointing at the root. -/
structure Pois (st : STrie) (g : Nat) : Prop where
  gne : g ≠ 0
  glt : g < st.nodes.length
  rootA0 : ∀ x, (st.node x).rootA = 0
  lpsSelf : (st.node g).lps = some g
  mapsSelf : (st.node g).mapsAt = g
  ilSelf : g ∈ st.ilMap.getD g []
  chEmpty : st.chMap.getD g [] = []
  chLen : st.chMap.length = st.nodes.length
  ilLen : st.ilMap.length = st.nodes.length

/-- A depth certificate: `d` assigns the root depth 0, increases by one
along every child edge, strictly decreases along every failure link
(counting a nil link as a link to the root), and is positive off the
root.  Its existence is exactly the failure-forest claim. -/
structure DepD (st : STrie) (d : Nat → Nat) : Prop where
  d0 : d 0 = 0
  chD : ∀ a, RealN st a → ∀ p ∈ st.chCell a, d p.2 = d a + 1
  lpsD : ∀ a m, RealN st a → (st.node a).lps = some m → d m < d a
  ilD : ∀ a x, RealN st a → x ∈ st.ilCell a → d a < d x
  posD : ∀ a, RealN st a → a ≠ 0 → 1 ≤ d a

/-- A node whose inverse-failure set is exactly itself keeps reproducing
itself on the `enterOutput` worklist, so the propagation never stops:
this is the heart of the `AddSearchTerm` divergence. -/
theorem eoGo_self (a : Nat) (t : String) :
    ∀ (f : Nat) (st : STrie), st.ilCell a = [a] → eoGo f st [a] t = none := by
  intro f
  induction f with
  | zero => intro st _; rfl
  | succ g ih =>
    intro st h
    have h1 : (st.putOt a t).ilCell a = [a] := h
    show eoGo g (st.putOt a t) ((st.putOt a t).ilCell a ++ []) t = none
    rw [h1]
    exact ih (st.putOt a t) h1

/-- C1.  The claim asserts incremental equivalence: `New(T)` followed by
`AddSearchTerm(t)` must match exactly like `New(T ∪ {t})` on every stream.
The code violates it: with `T = ["bcx","c"]` and `t = "cx"`, searching
`"bcx"` after the incremental add misses the match `{"cx", [1,3)}` that
the batch automaton `New(["bcx","c","cx"])` reports, because the root's
stale inverse-failure set (node "bc" is recorded there although its
failure link was re-pointed at node "c" by the second build pass) makes
`completeInverseFn` skip the re-link of node "bcx" to the new "cx" node.
This theorem evaluates both runs at that failing input. -/
theorem C1_incremental_equivalence_fails :
    New ["bcx", "c"] 100 = some trieBcxC ∧
    AddSearchTerm trieBcxC "cx" 100 = some trieBcxCincr ∧
    Search trieBcxCincr 100 (okStream "bcx") =
      some [⟨"c", (1, 2)⟩, ⟨"bcx", (0, 3)⟩] ∧
    New ["bcx", "c", "cx"] 100 = some trieBcxCcx ∧
    Search trieBcxCcx 100 (okStream "bcx") =
      some [⟨"c", (1, 2)⟩, ⟨"bcx", (0, 3)⟩, ⟨"cx", (1, 3)⟩] :=
  ⟨rfl, rfl, rfl, rfl, rfl⟩

/-- C2.  The claim asserts the closure property: the matches emitted at a
position are exactly the inserted terms that end there.  The code violates
it: for `New(["a",""])` the empty term is an inserted term (it sits in the
root's output set and the root is marked as a word), and `""` is a suffix
of `"a"` ending at offset 1, yet searching `"a"` emits only
`{"a", [0,1)}` — the empty term was never propagated into node "a"'s
output set (depth-1 nodes keep a nil failure link and are reachable
neither via the root's `ilps` nor via `completeFailureFn`'s union, which
is skipped when the parent is the root). -/
theorem C2_closure_property_fails :
    New ["a", ""] 100 = some trieAEmpty ∧
    ("" ∈ trieAEmpty.otCell 0 ∧ (trieAEmpty.node 0).isWord = true) ∧
    Search trieAEmpty 100 (okStream "a") = some [⟨"a", (0, 1)⟩] :=
  ⟨rfl, ⟨by decide, rfl⟩, rfl⟩

/-- C3.  The claim asserts the bidirectional invariant
`x ∈ n.inverseFailureLinks ⟺ failureFn(x) = n` after every `New` and
`AddSearchTerm`.  Already `New(["bc","c"])` violates both directions:
node 2 ("bc") is in the root's `ilps` although its failure link resolves
to node 3 ("c") — the breadth-first pass re-pointed `lps` without touching
`ilps` — and node 1 ("b") has a nil failure link resolving to the root yet
is absent from the root's `ilps` (depth-1 children are never recorded). -/
theorem C3_inverse_failure_invariant_fails :
    New ["bc", "c"] 100 = some trieBcC ∧
    (2 ∈ trieBcC.ilCell 0 ∧ trieBcC.failureFn 2 = 3 ∧ (3 : Nat) ≠ 0) ∧
    (trieBcC.failureFn 1 = 0 ∧ 1 ∉ trieBcC.ilCell 0 ∧ 1 < trieBcC.nodes.length) :=
  ⟨rfl, ⟨by decide, rfl, by decide⟩, rfl, by decide, by decide⟩

/-- C4.  The claim asserts that insertion always terminates, in particular
for terms whose first character is not yet a child of the root, and that
an empty term marks the root as a complete word.  Both parts fail on the
code: `AddSearchTerm(trieB, "a")` runs out of any amount of fuel (the Go
original recurses forever in `enterOutput`, because the value-receiver
copy of the root is not the root by pointer comparison, so the new node's
failure link is computed to be the node itself and it lands in its own
inverse-failure set), and `AddSearchTerm(trieB, "")` marks only the
discarded receiver copy as a word — the root's `isWord` stays false (the
empty term does reach the root's output set through the shared map). -/
theorem C4_insertion_totality_fails :
    (∀ fuel, AddSearchTerm trieB "a" fuel = none) ∧
    AddSearchTerm trieB "" 50 = some trieBAddEmpty ∧
    ((trieBAddEmpty.node 0).isWord = false ∧ "" ∈ trieBAddEmpty.otCell 0) := by
  refine ⟨?_, rfl, rfl, by decide⟩
  intro fuel
  match fuel with
  | 0 => rfl
  | g + 1 =>
    have key : AddSearchTerm trieB "a" (g + 1) = eoGo (g + 1) poisonedState [3] "a" := rfl
    rw [key]
    exact eoGo_self 3 "a" (g + 1) poisonedState rfl

/-- The read loop only looks at the successfully read items before the
first error: streams with the same ok-items before their first failure are
indistinguishable (whatever the error type and value, and whatever follows
the failed read). -/
theorem sGo_oksBefore {ε ε' : Type} (st : STrie) (fuel : Nat) :
    ∀ (l₁ : List (Except ε (Char × Nat))) (l₂ : List (Except ε' (Char × Nat))) (n idx : Nat),
      oksBefore l₁ = oksBefore l₂ → sGo st fuel n idx l₁ = sGo st fuel n idx l₂ := by
  intro l₁
  induction l₁ with
  | nil =>
    intro l₂ n idx h
    cases l₂ with
    | nil => rfl
    | cons e r =>
      cases e with
      | ok x => simp [oksBefore] at h
      | error _ => rfl
  | cons e r ih =>
    cases e with
    | error err =>
      intro l₂ n idx h
      simp only [oksBefore] at h
      cases l₂ with
      | nil => rfl
      | cons e' r' =>
        cases e' with
        | ok x => simp [oksBefore] at h
        | error _ => rfl
    | ok p =>
      intro l₂ n idx h
      obtain ⟨c, w⟩ := p
      cases l₂ with
      | nil => simp [oksBefore] at h
      | cons e' r' =>
        cases e' with
        | error _ => simp [oksBefore] at h
        | ok p' =>
          obtain ⟨c', w'⟩ := p'
          simp only [oksBefore, List.cons.injEq, Prod.mk.injEq] at h
          obtain ⟨⟨rfl, rfl⟩, hr⟩ := h
          simp only [sGo]
          split
          · rfl
          · rename_i n1 _
            rw [ih r' (st.getChild n1 c) (idx + w) hr]

/-- C7.  Any read error closes the match sequence exactly as a clean end
of input does: two streams that agree on the successfully read items
before their first failed read produce identical `Search` results — the
error value, its type, and everything after it are invisible, and no
error-like value ever appears in the output (its type contains none). -/
theorem C7_read_failure_is_end_of_input {ε ε' : Type} (st : STrie) (fuel : Nat)
    (l₁ : List (Except ε (Char × Nat))) (l₂ : List (Except ε' (Char × Nat)))
    (h : oksBefore l₁ = oksBefore l₂) :
    Search st fuel l₁ = Search st fuel l₂ :=
  sGo_oksBefore (allocNode st (st.node 0)) fuel l₁ l₂ st.nodes.length 0 h

/-- Witness for C7: a stream that fails after reading `'a'`, with an
error of one type, matches a clean two-item stream of another error type
truncated at its own first error. -/
theorem C7_read_failure_is_end_of_input_witness :
    Search trieAcan 5 [Except.ok ('a', 1), Except.error ()] =
      Search trieAcan 5 [Except.ok ('a', 1), Except.error true, Except.ok ('b', 1)] :=
  C7_read_failure_is_end_of_input trieAcan 5 _ _ rfl

/-- Every match the read loop emits is located at
`[index - byteLen(term), index)` for the running offset `index` at the
step that emitted it. -/
theorem sGo_locations {ε : Type} (st : STrie) (fuel : Nat) :
    ∀ (l : List (Except ε (Char × Nat))) (n idx : Nat) (ms : List Match),
      sGo st fuel n idx l = some ms →
      ∀ m ∈ ms, m.Location.2 - m.Location.1 = (m.Term.utf8ByteSize : Int) ∧
        ∃ i ∈ cumOffsets idx l, m.Location.2 = (i : Int) := by
  intro l
  induction l with
  | nil =>
    intro n idx ms h m hm
    simp only [sGo, Option.some.injEq] at h
    subst h
    simp at hm
  | cons e r ih =>
    intro n idx ms h m hm
    cases e with
    | error err =>
      simp only [sGo, Option.some.injEq] at h
      subst h
      simp at hm
    | ok p =>
      obtain ⟨c, w⟩ := p
      simp only [sGo] at h
      split at h
      · exact absurd h (by simp)
      · rename_i n1 _
        split at h
        · exact absurd h (by simp)
        · rename_i tail h2
          simp only [Option.some.injEq] at h
          subst h
          rcases List.mem_append.mp hm with hml | hmr
          · obtain ⟨t, _, rfl⟩ := List.mem_map.mp hml
            refine ⟨by ring, idx + w, ?_, rfl⟩
            simp [cumOffsets]
          · obtain ⟨hrel, i, hi, hloc⟩ := ih (st.getChild n1 c) (idx + w) tail h2 m hmr
            refine ⟨hrel, i, ?_, hloc⟩
            simp [cumOffsets, hi]

/-- C8.  Match location arithmetic: every match `Search` emits has
`Location = [offset - byteLength(term), offset)` where `offset` is the
cumulative sum of the widths of the characters consumed so far; hence
`end - start` equals the term's encoded byte length.  This holds for every
automaton state and every stream. -/
theorem C8_match_location_arithmetic {ε : Type} (st : STrie) (fuel : Nat)
    (input : List (Except ε (Char × Nat))) (ms : List Match)
    (h : Search st fuel input = some ms) :
    ∀ m ∈ ms, m.Location.2 - m.Location.1 = (m.Term.utf8ByteSize : Int) ∧
      ∃ i ∈ cumOffsets 0 input, m.Location.2 = (i : Int) :=
  sGo_locations (allocNode st (st.node 0)) fuel input st.nodes.length 0 ms h

/-- Witness for C8, at the worked scenario's match `{"can", [4,7)}`. -/
theorem C8_match_location_arithmetic_witness :
    ((⟨"can", (4, 7)⟩ : Match).Location.2 - (⟨"can", (4, 7)⟩ : Match).Location.1 =
      (("can" : String).utf8ByteSize : Int)) ∧
    ∃ i ∈ cumOffsets 0 (okStream "you can do it!"),
      ((⟨"can", (4, 7)⟩ : Match).Location.2 = (i : Int)) :=
  C8_match_location_arithmetic trieAcanAn 100 (okStream "you can do it!")
    [⟨"a", (5, 6)⟩, ⟨"can", (4, 7)⟩, ⟨"an", (5, 7)⟩] rfl ⟨"can", (4, 7)⟩ (by decide)

/-- The state-passing read loop returns its input state unchanged and
computes exactly the matches of the plain read loop. -/
theorem sGoS_eq_sGo {ε : Type} (st : STrie) (fuel : Nat) :
    ∀ (l : List (Except ε (Char × Nat))) (n idx : Nat),
      sGoS st fuel n idx l = Option.map (fun ms => (st, ms)) (sGo st fuel n idx l) := by
  intro l
  induction l with
  | nil => intro n idx; rfl
  | cons e r ih =>
    intro n idx
    cases e with
    | error _ => rfl
    | ok p =>
      obtain ⟨c, w⟩ := p
      simp only [sGoS, sGo]
      split
      · rfl
      · rename_i n1 _
        rw [ih (st.getChild n1 c) (idx + w)]
        cases sGo st fuel (st.getChild n1 c) (idx + w) r <;> rfl

/-- Appending one cell that looks exactly like the lookup default is
invisible to `getD`. -/
theorem getD_append_self {α : Type} (l : List α) (x : α) :
    ∀ i, (l ++ [x]).getD i x = l.getD i x := by
  induction l with
  | nil => intro i; cases i <;> rfl
  | cons a l ih =>
    intro i
    cases i with
    | zero => rfl
    | succ j => exact ih j

/-- C9.  Search is read-only: running the state-passing embedding of
`Search` to completion returns the automaton state unchanged (it only
appends the value-receiver copy of the root record, which Go keeps on the
goroutine's stack), so every field of every pre-existing trie node —
children, `isWord`, failure links, inverse failure links, and output
sets — is exactly as before, and the matches are those of `Search`. -/
theorem C9_search_is_read_only {ε : Type} (st : STrie) (fuel : Nat)
    (input : List (Except ε (Char × Nat))) (st' : STrie) (ms : List Match)
    (h : SearchS st fuel input = some (st', ms)) :
    Search st fuel input = some ms ∧
    st' = allocNode st (st.node 0) ∧
    (∀ a, a < st.nodes.length →
      st'.node a = st.node a ∧ st'.chCell a = st.chCell a ∧
      st'.ilCell a = st.ilCell a ∧ st'.otCell a = st.otCell a) := by
  have he := sGoS_eq_sGo (allocNode st (st.node 0)) fuel input st.nodes.length 0
  simp only [SearchS] at h
  rw [he] at h
  cases hg : sGo (allocNode st (st.node 0)) fuel st.nodes.length 0 input with
  | none => rw [hg] at h; exact absurd h (by simp)
  | some ms0 =>
    rw [hg] at h
    simp only [Option.map_some', Option.some.injEq, Prod.mk.injEq] at h
    obtain ⟨rfl, rfl⟩ := h
    refine ⟨hg, rfl, ?_⟩
    intro a ha
    have hnode : (allocNode st (st.node 0)).node a = st.node a := by
      simp only [allocNode, STrie.node]
      exact List.getD_append _ _ _ _ ha
    refine ⟨hnode, ?_, ?_, ?_⟩
    · show (allocNode st (st.node 0)).chMap.getD
        ((allocNode st (st.node 0)).node a).mapsAt [] = st.chCell a
      rw [hnode]
      exact getD_append_self st.chMap [] _
    · show (allocNode st (st.node 0)).ilMap.getD
        ((allocNode st (st.node 0)).node a).mapsAt [] = st.ilCell a
      rw [hnode]
      exact getD_append_self st.ilMap [] _
    · show (allocNode st (st.node 0)).otMap.getD
        ((allocNode st (st.node 0)).node a).mapsAt [] = st.otCell a
      rw [hnode]
      exact getD_append_self st.otMap [] _

/-- Witness for C9 at `trieEmptyOnly` over the one-character stream "a". -/
theorem C9_search_is_read_only_witness :
    Search trieEmptyOnly 5 (okStream "a") = some [⟨"", (1, 1)⟩] ∧
    emptyOnlySearchState = allocNode trieEmptyOnly (trieEmptyOnly.node 0) ∧
    (∀ a, a < trieEmptyOnly.nodes.length →
      emptyOnlySearchState.node a = trieEmptyOnly.node a ∧
      emptyOnlySearchState.chCell a = trieEmptyOnly.chCell a ∧
      emptyOnlySearchState.ilCell a = trieEmptyOnly.ilCell a ∧
      emptyOnlySearchState.otCell a = trieEmptyOnly.otCell a) :=
  C9_search_is_read_only trieEmptyOnly 5 (okStream "a")
    emptyOnlySearchState [⟨"", (1, 1)⟩] rfl

/-- Unfolding equation of the failure walk `sWhile`. -/
theorem sWhile_step (st : STrie) (c : Char) (f n : Nat) :
    sWhile st c f n =
      if !(st.isRootN n) && (st.getCh n c).isNone then
        match f with
        | 0 => none
        | g + 1 => sWhile st c g (st.failureFn n)
      else some n := by
  rw [sWhile.eq_def]

/-- The failure walk stops at once when the cursor is the root or has a
child for the character. -/
theorem sWhile_stay (st : STrie) (c : Char) (f n : Nat)
    (h : (!(st.isRootN n) && (st.getCh n c).isNone) = false) :
    sWhile st c f n = some n := by
  rw [sWhile_step, h]
  rfl

/-- The failure walk takes one step when the cursor is a non-root node
without a child for the character. -/
theorem sWhile_move (st : STrie) (c : Char) (f n : Nat)
    (h : (!(st.isRootN n) && (st.getCh n c).isNone) = true) :
    sWhile st c (f + 1) n = sWhile st c f (st.failureFn n) := by
  rw [sWhile_step, h]
  rfl

/-- One read step that lands the cursor back on the root (address 0):
whenever the failure walk returns the root and the root has no child for
the character, the step emits the root's output entries at the advanced
offset and continues from the root. -/
theorem sGo_step_to_root {ε : Type} (st : STrie) (f idx n : Nat) (c : Char) (w : Nat)
    (rest : List (Except ε (Char × Nat)))
    (hw : sWhile st c f n = some 0) (hch : st.getCh 0 c = none) (hr0 : st.rootOf 0 = 0) :
    sGo st f n idx (.ok (c, w) :: rest) =
      match sGo st f 0 (idx + w) rest with
      | none => none
      | some tail => some ((st.otCell 0).map (fun t =>
          ⟨t, (((idx + w : Nat) : Int) - (t.utf8ByteSize : Int), ((idx + w : Nat) : Int))⟩) ++ tail) := by
  have hchild : st.getChild 0 c = 0 := by
    simp [STrie.getChild, hch, hr0]
  simp only [sGo, hw, hchild]

/-- The read loop of the `New([""])` automaton, with the cursor at the
root or at the receiver copy, emits exactly one empty match per consumed
character, at the cumulative offset after that character. -/
theorem emptyOnly_sGo :
    ∀ (l : List (Char × Nat)) (f idx n : Nat), n = 0 ∨ n = 1 →
      sGo emptyOnlySearchState (f + 1) n idx
          (l.map (fun p => (Except.ok p : Except Unit (Char × Nat)))) =
        some (emptyMatches idx l) := by
  intro l
  induction l with
  | nil =>
    intro f idx n hn
    rcases hn with rfl | rfl <;> rfl
  | cons p r ih =>
    intro f idx n hn
    obtain ⟨c, w⟩ := p
    have hw0 : sWhile emptyOnlySearchState c f 0 = some 0 :=
      sWhile_stay emptyOnlySearchState c f 0 rfl
    have hw : sWhile emptyOnlySearchState c (f + 1) n = some 0 := by
      rcases hn with rfl | rfl
      · exact sWhile_stay emptyOnlySearchState c (f + 1) 0 rfl
      · rw [sWhile_move emptyOnlySearchState c f 1 rfl]
        exact hw0
    rw [List.map_cons, sGo_step_to_root emptyOnlySearchState (f + 1) idx n c w _ hw rfl rfl,
      ih f (idx + w) 0 (Or.inl rfl)]
    show some (_ ++ _) = _
    simp [emptyMatches, emptyOnlySearchState, STrie.otCell, STrie.node, allocNode,
      trieEmptyOnly, Match.mk.injEq, show ("" : String).utf8ByteSize = 0 from rfl]

/-- Every entry of `emptyMatches` is an empty-term match at a positive
offset, provided every consumed character had positive width. -/
theorem emptyMatches_spec :
    ∀ (l : List (Char × Nat)) (idx : Nat), (∀ p ∈ l, 1 ≤ p.2) →
      ∀ m ∈ emptyMatches idx l,
        m.Term = "" ∧ m.Location.1 = m.Location.2 ∧ ((idx + 1 : Nat) : Int) ≤ m.Location.2 := by
  intro l
  induction l with
  | nil => intro idx _ m hm; simp [emptyMatches] at hm
  | cons p r ih =>
    intro idx hpos m hm
    obtain ⟨c, w⟩ := p
    simp only [emptyMatches, List.mem_cons] at hm
    rcases hm with rfl | hm
    · refine ⟨rfl, rfl, ?_⟩
      have hw : 1 ≤ w := hpos (c, w) (List.mem_cons_self _ _)
      show ((idx + 1 : Nat) : Int) ≤ ((idx + w : Nat) : Int)
      exact_mod_cast Nat.add_le_add_left hw idx
    · have := ih (idx + w) (fun q hq => hpos q (List.mem_cons_of_mem _ hq)) m hm
      refine ⟨this.1, this.2.1, le_trans ?_ this.2.2⟩
      exact_mod_cast Nat.succ_le_succ (Nat.le_add_right idx w)

/-- `emptyMatches` has one entry per consumed character. -/
theorem emptyMatches_length :
    ∀ (l : List (Char × Nat)) (idx : Nat), (emptyMatches idx l).length = l.length := by
  intro l
  induction l with
  | nil => intro idx; rfl
  | cons p r ih => intro idx; obtain ⟨c, w⟩ := p; simp [emptyMatches, ih]

/-- C10.  For the automaton `New([""])`: searching any stream of `n ≥ 1`
characters emits exactly one `Match{"", [i,i)}` per character consumed,
where `i` is the cumulative byte offset after that character; searching
the empty input emits nothing; and when every character has positive
width (as `io.RuneReader` successes do), no empty match is emitted at
offset 0. -/
theorem C10_empty_term_search (l : List (Char × Nat)) (f : Nat) :
    Search trieEmptyOnly (f + 1)
        (l.map (fun p => (Except.ok p : Except Unit (Char × Nat)))) =
      some (emptyMatches 0 l) ∧
    Search trieEmptyOnly f ([] : List (Except Unit (Char × Nat))) = some [] ∧
    (emptyMatches 0 l).length = l.length ∧
    ((∀ p ∈ l, 1 ≤ p.2) → ∀ m ∈ emptyMatches 0 l,
      m.Term = "" ∧ m.Location.1 = m.Location.2 ∧ (1 : Int) ≤ m.Location.2) := by
  refine ⟨?_, rfl, emptyMatches_length l 0, ?_⟩
  · exact emptyOnly_sGo l f 0 1 (Or.inr rfl)
  · intro hpos m hm
    have := emptyMatches_spec l 0 hpos m hm
    exact ⟨this.1, this.2.1, by exact_mod_cast this.2.2⟩

/-- Witness for C10 at the two-character stream "ab". -/
theorem C10_empty_term_search_witness :
    Search trieEmptyOnly 3
        ([('a', 1), ('b', 1)].map (fun p => (Except.ok p : Except Unit (Char × Nat)))) =
      some (emptyMatches 0 [('a', 1), ('b', 1)]) ∧
    ((⟨"", (1, 1)⟩ : Match).Term = "" ∧ (⟨"", (1, 1)⟩ : Match).Location.1 =
      (⟨"", (1, 1)⟩ : Match).Location.2 ∧ (1 : Int) ≤ (⟨"", (1, 1)⟩ : Match).Location.2) := by
  have h := C10_empty_term_search [('a', 1), ('b', 1)] 2
  exact ⟨h.1, h.2.2.2 (by decide) ⟨"", (1, 1)⟩ (by decide)⟩

/-! Generic lemmas about the list primitives of the embedding. -/

theorem getD_set {α : Type} (l : List α) (i : Nat) (x d : α) :
    ∀ j, (l.set i x).getD j d = if i = j ∧ i < l.length then x else l.getD j d := by
  induction l generalizing i with
  | nil => intro j; simp
  | cons a l ih =>
    intro j
    cases i with
    | zero =>
      cases j with
      | zero => simp
      | succ j' => simp
    | succ i' =>
      cases j with
      | zero => simp
      | succ j' =>
        have := ih i' j'
        simp only [List.set, List.getD_cons_succ, List.length_cons, this]
        by_cases h1 : i' = j' ∧ i' < l.length
        · rw [if_pos h1, if_pos ⟨by rw [h1.1], Nat.succ_lt_succ h1.2⟩]
        · rw [if_neg h1, if_neg (fun hc => h1 ⟨Nat.succ_injective hc.1, Nat.lt_of_succ_lt_succ hc.2⟩)]

theorem getD_append_lt {α : Type} (l l' : List α) (d : α) (j : Nat) (h : j < l.length) :
    (l ++ l').getD j d = l.getD j d :=
  List.getD_append _ _ _ _ h

theorem lookupA_mem {l : List (Char × Nat)} {c : Char} {v : Nat}
    (h : lookupA l c = some v) : (c, v) ∈ l := by
  rcases hf : List.find? (fun p => p.1 == c) l with _ | q
  · rw [lookupA, hf] at h
    simp at h
  · rw [lookupA, hf] at h
    simp only [Option.map_some', Option.some.injEq] at h
    have h1 : q.1 = c := by
      have := List.find?_some hf
      simpa using this
    have h2 : q ∈ l := List.mem_of_find?_eq_some hf
    rw [← h1, ← h]
    exact h2

theorem mem_upsertA {l : List (Char × Nat)} {c : Char} {v : Nat} :
    ∀ p ∈ upsertA l c v, p = (c, v) ∨ p ∈ l := by
  induction l with
  | nil => intro p hp; simp [upsertA] at hp; left; exact hp
  | cons q qs ih =>
    intro p hp
    simp only [upsertA] at hp
    by_cases hc : q.1 == c
    · rw [if_pos hc] at hp
      rcases List.mem_cons.mp hp with rfl | hp
      · exact Or.inl rfl
      · exact Or.inr (List.mem_cons_of_mem _ hp)
    · rw [if_neg hc] at hp
      rcases List.mem_cons.mp hp with rfl | hp
      · exact Or.inr (List.mem_cons_self _ _)
      · rcases ih p hp with h | h
        · exact Or.inl h
        · exact Or.inr (List.mem_cons_of_mem _ h)

theorem lookupA_upsert_self (l : List (Char × Nat)) (c : Char) (v : Nat) :
    lookupA (upsertA l c v) c = some v := by
  induction l with
  | nil => simp [upsertA, lookupA, List.find?]
  | cons q qs ih =>
    simp only [upsertA]
    cases hq : q.1 == c with
    | true =>
      show lookupA ((c, v) :: qs) c = some v
      simp [lookupA, List.find?]
    | false =>
      show lookupA (q :: upsertA qs c v) c = some v
      simp only [lookupA, List.find?, hq]
      exact ih

theorem mem_insertSetN {l : List Nat} {x y : Nat} :
    y ∈ insertSetN l x ↔ y = x ∨ y ∈ l := by
  unfold insertSetN
  by_cases hx : x ∈ l
  · rw [if_pos hx]
    constructor
    · exact Or.inr
    · rintro (rfl | h)
      · exact hx
      · exact h
  · rw [if_neg hx]
    simp [List.mem_append, or_comm]

theorem insertSetN_keeps {l : List Nat} {x y : Nat} (h : y ∈ l) :
    y ∈ insertSetN l x :=
  mem_insertSetN.mpr (Or.inr h)

theorem insertSetN_self (l : List Nat) (x : Nat) : x ∈ insertSetN l x := by
  unfold insertSetN
  by_cases hx : x ∈ l
  · rwa [if_pos hx]
  · rw [if_neg hx]
    simp

/-! How each state mutator of the embedding acts on each accessor. -/

theorem node_putIl (st : STrie) (b x a : Nat) : (st.putIl b x).node a = st.node a := rfl

theorem chCell_putIl (st : STrie) (b x a : Nat) : (st.putIl b x).chCell a = st.chCell a := rfl

theorem length_putIl (st : STrie) (b x : Nat) :
    (st.putIl b x).nodes.length = st.nodes.length := rfl

theorem ilMapGetD_putIl (st : STrie) (b x : Nat) (j : Nat) :
    (st.putIl b x).ilMap.getD j [] =
      if (st.node b).mapsAt = j ∧ (st.node b).mapsAt < st.ilMap.length then
        insertSetN (st.ilCell b) x
      else st.ilMap.getD j [] :=
  getD_set st.ilMap _ _ [] j

theorem node_delIl (st : STrie) (b x a : Nat) : (st.delIl b x).node a = st.node a := rfl

theorem chCell_delIl (st : STrie) (b x a : Nat) : (st.delIl b x).chCell a = st.chCell a := rfl

theorem length_delIl (st : STrie) (b x : Nat) :
    (st.delIl b x).nodes.length = st.nodes.length := rfl

theorem ilMapGetD_delIl (st : STrie) (b x : Nat) (j : Nat) :
    (st.delIl b x).ilMap.getD j [] =
      if (st.node b).mapsAt = j ∧ (st.node b).mapsAt < st.ilMap.length then
        (st.ilCell b).filter (fun y => y ≠ x)
      else st.ilMap.getD j [] :=
  getD_set st.ilMap _ _ [] j

theorem node_putCh (st : STrie) (b : Nat) (c : Char) (v a : Nat) :
    (st.putCh b c v).node a = st.node a := rfl

theorem ilCell_putCh (st : STrie) (b : Nat) (c : Char) (v a : Nat) :
    (st.putCh b c v).ilCell a = st.ilCell a := rfl

theorem length_putCh (st : STrie) (b : Nat) (c : Char) (v : Nat) :
    (st.putCh b c v).nodes.length = st.nodes.length := rfl

theorem chMapGetD_putCh (st : STrie) (b : Nat) (c : Char) (v : Nat) (j : Nat) :
    (st.putCh b c v).chMap.getD j [] =
      if (st.node b).mapsAt = j ∧ (st.node b).mapsAt < st.chMap.length then
        upsertA (st.chCell b) c v
      else st.chMap.getD j [] :=
  getD_set st.chMap _ _ [] j

theorem node_putOt (st : STrie) (b : Nat) (t : String) (a : Nat) :
    (st.putOt b t).node a = st.node a := rfl

theorem chCell_putOt (st : STrie) (b : Nat) (t : String) (a : Nat) :
    (st.putOt b t).chCell a = st.chCell a := rfl

theorem ilCell_putOt (st : STrie) (b : Nat) (t : String) (a : Nat) :
    (st.putOt b t).ilCell a = st.ilCell a := rfl

theorem length_putOt (st : STrie) (b : Nat) (t : String) :
    (st.putOt b t).nodes.length = st.nodes.length := rfl

theorem node_setNode (st : STrie) (b : Nat) (n : Node) (a : Nat) :
    (st.setNode b n).node a = if b = a ∧ b < st.nodes.length then n else st.node a :=
  getD_set st.nodes b n default a

theorem length_setNode (st : STrie) (b : Nat) (n : Node) :
    (st.setNode b n).nodes.length = st.nodes.length := by
  simp [STrie.setNode]

theorem mapsAt_setLps (st : STrie) (b m a : Nat) :
    ((st.setLps b m).node a).mapsAt = (st.node a).mapsAt := by
  show ((st.setNode b _).node a).mapsAt = _
  rw [node_setNode]
  by_cases h : b = a ∧ b < st.nodes.length
  · rw [if_pos h, h.1]
  · rw [if_neg h]

theorem node_setLps_ne (st : STrie) (b m a : Nat) (h : a ≠ b) :
    (st.setLps b m).node a = st.node a := by
  show (st.setNode b _).node a = _
  rw [node_setNode, if_neg (fun hc => h hc.1.symm)]

theorem lps_setLps (st : STrie) (b m a : Nat) :
    ((st.setLps b m).node a).lps =
      if b = a ∧ b < st.nodes.length then some m else (st.node a).lps := by
  show ((st.setNode b _).node a).lps = _
  rw [node_setNode]
  by_cases h : b = a ∧ b < st.nodes.length
  · rw [if_pos h, if_pos h, h.1]
  · rw [if_neg h, if_neg h]

theorem rootA_setLps (st : STrie) (b m a : Nat) :
    ((st.setLps b m).node a).rootA = (st.node a).rootA := by
  show ((st.setNode b _).node a).rootA = _
  rw [node_setNode]
  by_cases h : b = a ∧ b < st.nodes.length
  · rw [if_pos h, h.1]
  · rw [if_neg h]

theorem length_setLps (st : STrie) (b m : Nat) :
    (st.setLps b m).nodes.length = st.nodes.length :=
  length_setNode st b _

theorem chCell_setLps (st : STrie) (b m a : Nat) :
    (st.setLps b m).chCell a = st.chCell a := by
  show (st.setLps b m).chMap.getD ((st.setLps b m).node a).mapsAt [] = _
  rw [mapsAt_setLps]
  rfl

theorem ilCell_setLps (st : STrie) (b m a : Nat) :
    (st.setLps b m).ilCell a = st.ilCell a := by
  show (st.setLps b m).ilMap.getD ((st.setLps b m).node a).mapsAt [] = _
  rw [mapsAt_setLps]
  rfl

theorem chMapGetD_setLps (st : STrie) (b m : Nat) (j : Nat) :
    (st.setLps b m).chMap.getD j [] = st.chMap.getD j [] := rfl

theorem ilMapGetD_setLps (st : STrie) (b m : Nat) (j : Nat) :
    (st.setLps b m).ilMap.getD j [] = st.ilMap.getD j [] := rfl

theorem mapsAt_setWord (st : STrie) (b a : Nat) :
    ((st.setWord b).node a).mapsAt = (st.node a).mapsAt := by
  show ((st.setNode b _).node a).mapsAt = _
  rw [node_setNode]
  by_cases h : b = a ∧ b < st.nodes.length
  · rw [if_pos h, h.1]
  · rw [if_neg h]

theorem lps_setWord (st : STrie) (b a : Nat) :
    ((st.setWord b).node a).lps = (st.node a).lps := by
  show ((st.setNode b _).node a).lps = _
  rw [node_setNode]
  by_cases h : b = a ∧ b < st.nodes.length
  · rw [if_pos h, h.1]
  · rw [if_neg h]

theorem rootA_setWord (st : STrie) (b a : Nat) :
    ((st.setWord b).node a).rootA = (st.node a).rootA := by
  show ((st.setNode b _).node a).rootA = _
  rw [node_setNode]
  by_cases h : b = a ∧ b < st.nodes.length
  · rw [if_pos h, h.1]
  · rw [if_neg h]

theorem length_setWord (st : STrie) (b : Nat) :
    (st.setWord b).nodes.length = st.nodes.length :=
  length_setNode st b _

theorem chCell_setWord (st : STrie) (b a : Nat) :
    (st.setWord b).chCell a = st.chCell a := by
  show (st.setWord b).chMap.getD ((st.setWord b).node a).mapsAt [] = _
  rw [mapsAt_setWord]
  rfl

theorem ilCell_setWord (st : STrie) (b a : Nat) :
    (st.setWord b).ilCell a = st.ilCell a := by
  show (st.setWord b).ilMap.getD ((st.setWord b).node a).mapsAt [] = _
  rw [mapsAt_setWord]
  rfl

theorem length_alloc (st : STrie) (n : Node) :
    (allocNode st n).nodes.length = st.nodes.length + 1 := by
  simp [allocNode]

theorem node_alloc_old (st : STrie) (n : Node) (a : Nat) (h : a < st.nodes.length) :
    (allocNode st n).node a = st.node a :=
  getD_append_lt _ _ _ _ h

theorem getD_append_len {α : Type} (l : List α) (x d : α) :
    (l ++ [x]).getD l.length d = x := by
  induction l with
  | nil => rfl
  | cons a l ih => exact ih

theorem node_alloc_new (st : STrie) (n : Node) :
    (allocNode st n).node st.nodes.length = n :=
  getD_append_len st.nodes n default

theorem chMapGetD_alloc (st : STrie) (n : Node) (j : Nat) :
    (allocNode st n).chMap.getD j [] = st.chMap.getD j [] :=
  getD_append_self st.chMap [] j

theorem ilMapGetD_alloc (st : STrie) (n : Node) (j : Nat) :
    (allocNode st n).ilMap.getD j [] = st.ilMap.getD j [] :=
  getD_append_self st.ilMap [] j

theorem otMapGetD_alloc (st : STrie) (n : Node) (j : Nat) :
    (allocNode st n).otMap.getD j [] = st.otMap.getD j [] :=
  getD_append_self st.otMap [] j

theorem RealN_putIl (st : STrie) (b x a : Nat) : RealN (st.putIl b x) a ↔ RealN st a :=
  Iff.rfl

theorem RealN_delIl (st : STrie) (b x a : Nat) : RealN (st.delIl b x) a ↔ RealN st a :=
  Iff.rfl

theorem RealN_putCh (st : STrie) (b : Nat) (c : Char) (v a : Nat) :
    RealN (st.putCh b c v) a ↔ RealN st a :=
  Iff.rfl

theorem RealN_putOt (st : STrie) (b : Nat) (t : String) (a : Nat) :
    RealN (st.putOt b t) a ↔ RealN st a :=
  Iff.rfl

theorem RealN_setLps (st : STrie) (b m a : Nat) : RealN (st.setLps b m) a ↔ RealN st a := by
  unfold RealN
  rw [mapsAt_setLps, length_setLps]

theorem RealN_setWord (st : STrie) (b a : Nat) : RealN (st.setWord b) a ↔ RealN st a := by
  unfold RealN
  rw [mapsAt_setWord, length_setWord]

theorem RealN_alloc_old (st : STrie) (n : Node) (a : Nat) (h : RealN st a) :
    RealN (allocNode st n) a := by
  refine ⟨?_, ?_⟩
  · rw [length_alloc]
    exact Nat.lt_succ_of_lt h.1
  · rw [node_alloc_old st n a h.1]
    exact h.2

theorem RealN_alloc_new (st : STrie) (n : Node) (h : n.mapsAt = st.nodes.length) :
    RealN (allocNode st n) st.nodes.length := by
  refine ⟨?_, ?_⟩
  · rw [length_alloc]
    exact Nat.lt_succ_self _
  · rw [node_alloc_new]
    exact h

/-! Invariant-preservation lemmas towards the failure-forest claim. -/

theorem isRootN_eq (st : STrie) (a : Nat) (h : (st.node a).rootA = 0) :
    st.isRootN a = (a == 0) := by
  unfold STrie.isRootN STrie.rootOf
  rw [h]

theorem isRootN_zero (st : STrie) (h : (st.node 0).rootA = 0) : st.isRootN 0 = true := by
  rw [isRootN_eq st 0 h]
  rfl

theorem isRootN_ne_zero (st : STrie) (a : Nat) (h : (st.node a).rootA = 0) (ha : a ≠ 0) :
    st.isRootN a = false := by
  rw [isRootN_eq st a h]
  simp [ha]

theorem lookupA_isSome_of_mem {l : List (Char × Nat)} {c : Char} {v : Nat}
    (h : (c, v) ∈ l) : ∃ u, lookupA l c = some u := by
  induction l with
  | nil => simp at h
  | cons p ps ih =>
    rcases List.mem_cons.mp h with rfl | h
    · exact ⟨v, by simp [lookupA, List.find?]⟩
    · cases hq : p.1 == c with
      | true => exact ⟨p.2, by simp [lookupA, List.find?, hq]⟩
      | false =>
        obtain ⟨u, hu⟩ := ih h
        refine ⟨u, ?_⟩
        simpa [lookupA, List.find?, hq] using hu

/-- Transport of the invariants along equal node/children/inverse maps
(the output sets play no role in them). -/
theorem Wf_of_eq {st st' : STrie} (hw : Wf st)
    (hn : st'.nodes = st.nodes) (hc : st'.chMap = st.chMap) (hi : st'.ilMap = st.ilMap) :
    Wf st' := by
  have hnode : ∀ a, st'.node a = st.node a := fun a => by unfold STrie.node; rw [hn]
  have hreal : ∀ a, RealN st' a ↔ RealN st a := fun a => by
    unfold RealN; rw [hn, hnode]
  constructor
  · intro j p hp
    rw [hc] at hp
    exact ⟨(hreal _).mpr (hw.chRaw j p hp).1, (hw.chRaw j p hp).2⟩
  · intro j x hx
    rw [hi] at hx
    exact ⟨(hreal _).mpr (hw.ilRaw j x hx).1, (hw.ilRaw j x hx).2⟩
  · intro a; rw [hnode]; exact hw.rootA0 a
  · rw [hn]; exact hw.rootLen
  · rw [hnode]; exact hw.rootMaps
  · rw [hnode]; exact hw.rootLps
  · intro a m hm
    rw [hnode] at hm
    exact (hreal _).mpr (hw.lpsReal a m hm)
  · rw [hc, hn]; exact hw.chLen
  · rw [hi, hn]; exact hw.ilLen

theorem DepD_of_eq {st st' : STrie} {d : Nat → Nat} (hd : DepD st d)
    (hn : st'.nodes = st.nodes) (hc : st'.chMap = st.chMap) (hi : st'.ilMap = st.ilMap) :
    DepD st' d := by
  have hnode : ∀ a, st'.node a = st.node a := fun a => by unfold STrie.node; rw [hn]
  have hreal : ∀ a, RealN st' a ↔ RealN st a := fun a => by
    unfold RealN; rw [hn, hnode]
  have hchc : ∀ a, st'.chCell a = st.chCell a := fun a => by
    unfold STrie.chCell; rw [hc, hnode]
  have hilc : ∀ a, st'.ilCell a = st.ilCell a := fun a => by
    unfold STrie.ilCell; rw [hi, hnode]
  constructor
  · exact hd.d0
  · intro a ha p hp
    rw [hchc] at hp
    exact hd.chD a ((hreal a).mp ha) p hp
  · intro a m ha hm
    rw [hnode] at hm
    exact hd.lpsD a m ((hreal a).mp ha) hm
  · intro a x ha hx
    rw [hilc] at hx
    exact hd.ilD a x ((hreal a).mp ha) hx
  · intro a ha hne
    exact hd.posD a ((hreal a).mp ha) hne

/-- `enterOutput`'s worklist loop only ever touches output cells. -/
theorem eoGo_frame : ∀ (f : Nat) (st : STrie) (wl : List Nat) (t : String) (st' : STrie),
    eoGo f st wl t = some st' →
    st'.nodes = st.nodes ∧ st'.chMap = st.chMap ∧ st'.ilMap = st.ilMap := by
  intro f
  induction f with
  | zero =>
    intro st wl t st' h
    cases wl with
    | nil => cases h; exact ⟨rfl, rfl, rfl⟩
    | cons a r => simp [eoGo] at h
  | succ g ih =>
    intro st wl t st' h
    cases wl with
    | nil => cases h; exact ⟨rfl, rfl, rfl⟩
    | cons a r =>
      have h' : eoGo g (st.putOt a t) ((st.putOt a t).ilCell a ++ r) t = some st' := h
      obtain ⟨h1, h2, h3⟩ := ih _ _ _ _ h'
      exact ⟨h1, h2, h3⟩

/-- Propagating a word along a worklist that contains a node sitting in
its own inverse-failure set never terminates: the node keeps re-entering
the worklist. -/
theorem eoGo_mem_self : ∀ (f : Nat) (st : STrie) (wl : List Nat) (t : String) (a : Nat),
    a ∈ wl → a ∈ st.ilMap.getD ((st.node a).mapsAt) [] → eoGo f st wl t = none := by
  intro f
  induction f with
  | zero =>
    intro st wl t a hwl _
    cases wl with
    | nil => simp at hwl
    | cons x r => rfl
  | succ g ih =>
    intro st wl t a hwl hself
    cases wl with
    | nil => simp at hwl
    | cons x r =>
      show eoGo g (st.putOt x t) ((st.putOt x t).ilCell x ++ r) t = none
      have hself' : a ∈ (st.putOt x t).ilMap.getD (((st.putOt x t).node a).mapsAt) [] := hself
      refine ih (st.putOt x t) _ t a ?_ hself'
      rcases List.mem_cons.mp hwl with rfl | hr
      · refine List.mem_append.mpr (Or.inl ?_)
        exact hself'
      · exact List.mem_append.mpr (Or.inr hr)

/-- `setWord` leaves everything the invariants talk about unchanged. -/
theorem Wf_setWord {st : STrie} (hw : Wf st) (b : Nat) : Wf (st.setWord b) := by
  constructor
  · intro j p hp
    exact ⟨(RealN_setWord st b _).mpr (hw.chRaw j p hp).1, (hw.chRaw j p hp).2⟩
  · intro j x hx
    exact ⟨(RealN_setWord st b _).mpr (hw.ilRaw j x hx).1, (hw.ilRaw j x hx).2⟩
  · intro a; rw [rootA_setWord]; exact hw.rootA0 a
  · rw [length_setWord]; exact hw.rootLen
  · rw [mapsAt_setWord]; exact hw.rootMaps
  · rw [lps_setWord]; exact hw.rootLps
  · intro a m hm
    rw [lps_setWord] at hm
    exact (RealN_setWord st b _).mpr (hw.lpsReal a m hm)
  · show st.chMap.length = (st.setWord b).nodes.length
    rw [length_setWord]; exact hw.chLen
  · show st.ilMap.length = (st.setWord b).nodes.length
    rw [length_setWord]; exact hw.ilLen

theorem DepD_setWord {st : STrie} {d : Nat → Nat} (hd : DepD st d) (b : Nat) :
    DepD (st.setWord b) d := by
  constructor
  · exact hd.d0
  · intro a ha p hp
    rw [chCell_setWord] at hp
    exact hd.chD a ((RealN_setWord st b a).mp ha) p hp
  · intro a m ha hm
    rw [lps_setWord] at hm
    exact hd.lpsD a m ((RealN_setWord st b a).mp ha) hm
  · intro a x ha hx
    rw [ilCell_setWord] at hx
    exact hd.ilD a x ((RealN_setWord st b a).mp ha) hx
  · intro a ha hne
    exact hd.posD a ((RealN_setWord st b a).mp ha) hne

/-- The output union loop only touches output cells. -/
theorem otUnionList_frame (np : Nat) : ∀ (l : List String) (st : STrie),
    (otUnionList np st l).nodes = st.nodes ∧ (otUnionList np st l).chMap = st.chMap ∧
    (otUnionList np st l).ilMap = st.ilMap := by
  intro l
  induction l with
  | nil => intro st; exact ⟨rfl, rfl, rfl⟩
  | cons t ts ih =>
    intro st
    have := ih (st.putOt np t)
    simpa [otUnionList] using this

/-- What the `completeFailureFn` chain walk returns: a heap node no deeper
than the starting node. -/
theorem cffLoop_sound {st : STrie} {d : Nat → Nat} (hw : Wf st) (hd : DepD st d) (c : Char) :
    ∀ (fuel m mp : Nat), RealN st m → m ≠ 0 → cffLoop st c fuel m = some mp →
      RealN st mp ∧ d mp ≤ d m := by
  intro fuel
  induction fuel with
  | zero => intro m mp _ _ h; simp [cffLoop] at h
  | succ f ih =>
    intro m mp hm hm0 h
    have hfail : RealN st (st.failureFn m) ∧ d (st.failureFn m) + 1 ≤ d m := by
      unfold STrie.failureFn
      cases hl : (st.node m).lps with
      | none =>
        show RealN st (st.rootOf m) ∧ d (st.rootOf m) + 1 ≤ d m
        unfold STrie.rootOf
        rw [hw.rootA0 m]
        refine ⟨⟨hw.rootLen, hw.rootMaps⟩, ?_⟩
        rw [hd.d0]
        exact hd.posD m hm hm0
      | some mm =>
        show RealN st mm ∧ d mm + 1 ≤ d m
        exact ⟨hw.lpsReal m mm hl, hd.lpsD m mm hm hl⟩
    have hchild : ∀ x, RealN st x →
        RealN st (st.getChild x c) ∧ d (st.getChild x c) ≤ d x + 1 := by
      intro x hx
      unfold STrie.getChild STrie.getCh
      cases hq : lookupA (st.chCell x) c with
      | none =>
        show RealN st (st.rootOf x) ∧ d (st.rootOf x) ≤ d x + 1
        unfold STrie.rootOf
        rw [hw.rootA0 x]
        exact ⟨⟨hw.rootLen, hw.rootMaps⟩, by rw [hd.d0]; exact Nat.zero_le _⟩
      | some b =>
        have hb := lookupA_mem hq
        have := hw.chRaw _ _ hb
        have hdb := hd.chD x hx (c, b) hb
        refine ⟨this.1, ?_⟩
        show d b ≤ d x + 1
        exact le_of_eq hdb
    simp only [cffLoop] at h
    split at h
    · rename_i hcond
      obtain ⟨hmp, hdmp⟩ := hchild (st.failureFn m) hfail.1
      cases h
      exact ⟨hmp, le_trans hdmp hfail.2⟩
    · rename_i hcond
      have hne : st.failureFn m ≠ 0 := by
        intro h0
        have : st.isRootN (st.failureFn m) = true := by
          rw [h0]
          exact isRootN_zero st (hw.rootA0 0)
        simp [this] at hcond
      have := ih (st.failureFn m) mp hfail.1 hne h
      exact ⟨this.1, le_trans this.2 (Nat.le_of_succ_le hfail.2)⟩

/-- `completeFailureFn` preserves the invariants and the depth
certificate, and changes neither the children map, the inverse map, nor
any node's cell address. -/
theorem cFF_sound {st : STrie} {d : Nat → Nat} (hw : Wf st) (hd : DepD st d)
    (a : Nat) (c : Char) (fuel : Nat)
    (hpre : st.isRootN a = true ∨ (RealN st a ∧ ∃ v, st.getCh a c = some v)) :
    ∀ st', completeFailureFn st a c fuel = some st' →
      Wf st' ∧ DepD st' d ∧
      st'.nodes.length = st.nodes.length ∧ st'.chMap = st.chMap ∧ st'.ilMap = st.ilMap ∧
      (∀ x, (st'.node x).mapsAt = (st.node x).mapsAt) := by
  intro st' h
  unfold completeFailureFn at h
  cases hroot : st.isRootN a with
  | true =>
    rw [hroot] at h
    simp only [if_true] at h
    cases h
    exact ⟨hw, hd, rfl, rfl, rfl, fun _ => rfl⟩
  | false =>
    rw [hroot] at h
    simp only [Bool.false_eq_true, if_false] at h
    rcases hpre with hz | ⟨hra, v, hv⟩
    · rw [hz] at hroot; cases hroot
    have ha0 : a ≠ 0 := by
      intro h0
      rw [h0, isRootN_zero st (hw.rootA0 0)] at hroot
      cases hroot
    split at h
    · cases h
    · rename_i mp hcl
      have hnp : st.getChild a c = v := by
        unfold STrie.getChild
        rw [hv]
        rfl
      have hvmem : (c, v) ∈ st.chCell a := lookupA_mem hv
      have hvreal := hw.chRaw _ _ hvmem
      have hvd := hd.chD a hra (c, v) hvmem
      obtain ⟨hmpr, hmpd⟩ := cffLoop_sound hw hd c fuel a mp hra ha0 hcl
      cases h
      set np := st.getChild a c with hnpdef
      have hnp0 : np ≠ 0 := by rw [hnp]; exact hvreal.2
      have hnplt : np < st.nodes.length := by rw [hnp]; exact hvreal.1.1
      have hw1 : Wf (st.setLps np mp) := by
        constructor
        · intro j p hp
          rw [chMapGetD_setLps] at hp
          exact ⟨(RealN_setLps st np mp _).mpr (hw.chRaw j p hp).1, (hw.chRaw j p hp).2⟩
        · intro j x hx
          rw [ilMapGetD_setLps] at hx
          exact ⟨(RealN_setLps st np mp _).mpr (hw.ilRaw j x hx).1, (hw.ilRaw j x hx).2⟩
        · intro x; rw [rootA_setLps]; exact hw.rootA0 x
        · rw [length_setLps]; exact hw.rootLen
        · rw [mapsAt_setLps]; exact hw.rootMaps
        · rw [node_setLps_ne st np mp 0 (fun h0 => hnp0 h0.symm)]
          exact hw.rootLps
        · intro x m hm
          rw [lps_setLps] at hm
          by_cases hx : np = x ∧ np < st.nodes.length
          · rw [if_pos hx] at hm
            cases hm
            exact (RealN_setLps st np mp _).mpr hmpr
          · rw [if_neg hx] at hm
            exact (RealN_setLps st np mp _).mpr (hw.lpsReal x m hm)
        · show st.chMap.length = (st.setLps np mp).nodes.length
          rw [length_setLps]; exact hw.chLen
        · show st.ilMap.length = (st.setLps np mp).nodes.length
          rw [length_setLps]; exact hw.ilLen
      have hd1 : DepD (st.setLps np mp) d := by
        constructor
        · exact hd.d0
        · intro x hx p hp
          rw [chCell_setLps] at hp
          exact hd.chD x ((RealN_setLps st np mp x).mp hx) p hp
        · intro x m hx hm
          rw [lps_setLps] at hm
          by_cases hxx : np = x ∧ np < st.nodes.length
          · rw [if_pos hxx] at hm
            cases hm
            rw [← hxx.1]
            have hdv : d v = d a + 1 := hvd
            calc d mp ≤ d a := hmpd
            _ < d np := by rw [hnp, hdv]; exact Nat.lt_succ_self _
          · rw [if_neg hxx] at hm
            exact hd.lpsD x m ((RealN_setLps st np mp x).mp hx) hm
        · intro x y hx hy
          rw [ilCell_setLps] at hy
          exact hd.ilD x y ((RealN_setLps st np mp x).mp hx) hy
        · intro x hx hne
          exact hd.posD x ((RealN_setLps st np mp x).mp hx) hne
      obtain ⟨hfn, hfc, hfi⟩ := otUnionList_frame np ((st.setLps np mp).otCell mp) (st.setLps np mp)
      refine ⟨Wf_of_eq hw1 hfn hfc hfi, DepD_of_eq hd1 hfn hfc hfi, ?_, ?_, ?_, ?_⟩
      · show (otUnion _ _ _).nodes.length = st.nodes.length
        unfold otUnion
        rw [hfn, length_setLps]
      · show (otUnion _ _ _).chMap = st.chMap
        unfold otUnion
        rw [hfc]
        rfl
      · show (otUnion _ _ _).ilMap = st.ilMap
        unfold otUnion
        rw [hfi]
        rfl
      · intro x
        show ((otUnion _ _ _).node x).mapsAt = _
        unfold otUnion STrie.node
        rw [hfn]
        exact mapsAt_setLps st np mp x

theorem RealN_of_frame {st st' : STrie} (hlen : st'.nodes.length = st.nodes.length)
    (hm : ∀ x, (st'.node x).mapsAt = (st.node x).mapsAt) (a : Nat) :
    RealN st' a ↔ RealN st a := by
  unfold RealN
  rw [hlen, hm]

theorem length_ilMap_putIl (st : STrie) (b x : Nat) :
    (st.putIl b x).ilMap.length = st.ilMap.length :=
  List.length_set _ _ _

theorem length_ilMap_delIl (st : STrie) (b x : Nat) :
    (st.delIl b x).ilMap.length = st.ilMap.length :=
  List.length_set _ _ _

theorem length_chMap_putCh (st : STrie) (b : Nat) (c : Char) (v : Nat) :
    (st.putCh b c v).chMap.length = st.chMap.length :=
  List.length_set _ _ _

theorem ilCell_putIl_real {st : STrie} (b x a : Nat) (hb : RealN st b) (ha : RealN st a)
    (hlen : st.ilMap.length = st.nodes.length) :
    (st.putIl b x).ilCell a =
      if a = b then insertSetN (st.ilCell b) x else st.ilCell a := by
  show (st.putIl b x).ilMap.getD ((st.putIl b x).node a).mapsAt [] = _
  rw [node_putIl, ha.2, ilMapGetD_putIl, hb.2]
  by_cases hab : a = b
  · rw [if_pos hab, if_pos ⟨hab.symm, by rw [hlen]; exact hb.1⟩]
  · rw [if_neg hab, if_neg (fun hc => hab hc.1.symm)]
    unfold STrie.ilCell
    rw [ha.2]

theorem ilCell_delIl_real {st : STrie} (b x a : Nat) (hb : RealN st b) (ha : RealN st a)
    (hlen : st.ilMap.length = st.nodes.length) :
    (st.delIl b x).ilCell a =
      if a = b then (st.ilCell b).filter (fun y => y ≠ x) else st.ilCell a := by
  show (st.delIl b x).ilMap.getD ((st.delIl b x).node a).mapsAt [] = _
  rw [node_delIl, ha.2, ilMapGetD_delIl, hb.2]
  by_cases hab : a = b
  · rw [if_pos hab, if_pos ⟨hab.symm, by rw [hlen]; exact hb.1⟩]
  · rw [if_neg hab, if_neg (fun hc => hab hc.1.symm)]
    unfold STrie.ilCell
    rw [ha.2]

/-- The failure target of a heap node is a heap node. -/
theorem failureFn_real {st : STrie} (hw : Wf st) (a : Nat) : RealN st (st.failureFn a) := by
  unfold STrie.failureFn
  cases hl : (st.node a).lps with
  | none =>
    show RealN st (st.rootOf a)
    unfold STrie.rootOf
    rw [hw.rootA0 a]
    exact ⟨hw.rootLen, hw.rootMaps⟩
  | some mm =>
    exact hw.lpsReal a mm hl

/-- One redirect step of `completeInverseFn` (remove from the old failure
target's inverse set, re-point the failure link, record at the new
target) keeps the invariants, given that the new target is strictly
shallower than the redirected node. -/
theorem redirect_sound {st : STrie} {d : Nat → Nat} (hw : Wf st) (hd : DepD st d)
    (xp np : Nat) (hxp : RealN st xp) (hxp0 : xp ≠ 0) (hnp : RealN st np) (hnp0 : np ≠ 0)
    (hdd : d np < d xp) :
    Wf (((st.delIl (st.failureFn xp) xp).setLps xp np).putIl np xp) ∧
    DepD (((st.delIl (st.failureFn xp) xp).setLps xp np).putIl np xp) d ∧
    (((st.delIl (st.failureFn xp) xp).setLps xp np).putIl np xp).nodes.length =
      st.nodes.length ∧
    (((st.delIl (st.failureFn xp) xp).setLps xp np).putIl np xp).chMap = st.chMap ∧
    (∀ y, ((((st.delIl (st.failureFn xp) xp).setLps xp np).putIl np xp).node y).mapsAt =
      (st.node y).mapsAt) := by
  set st1 := st.delIl (st.failureFn xp) xp with hst1
  have hw1 : Wf st1 := by
    constructor
    · intro j p hp
      exact ⟨(hw.chRaw j p hp).1, (hw.chRaw j p hp).2⟩
    · intro j x hx
      rw [ilMapGetD_delIl] at hx
      by_cases hc : (st.node (st.failureFn xp)).mapsAt = j ∧
          (st.node (st.failureFn xp)).mapsAt < st.ilMap.length
      · rw [if_pos hc] at hx
        have := List.mem_of_mem_filter hx
        exact ⟨(hw.ilRaw _ _ this).1, (hw.ilRaw _ _ this).2⟩
      · rw [if_neg hc] at hx
        exact ⟨(hw.ilRaw j x hx).1, (hw.ilRaw j x hx).2⟩
    · intro x; exact hw.rootA0 x
    · exact hw.rootLen
    · exact hw.rootMaps
    · exact hw.rootLps
    · intro x m hm; exact hw.lpsReal x m hm
    · exact hw.chLen
    · show st1.ilMap.length = st.nodes.length
      rw [length_ilMap_delIl]; exact hw.ilLen
  have hd1 : DepD st1 d := by
    constructor
    · exact hd.d0
    · intro x hx p hp; exact hd.chD x hx p hp
    · intro x m hx hm; exact hd.lpsD x m hx hm
    · intro x y hx hy
      have hy' : y ∈ (st.delIl (st.failureFn xp) xp).ilMap.getD
          (((st.delIl (st.failureFn xp) xp).node x).mapsAt) [] := hy
      rw [node_delIl, ilMapGetD_delIl] at hy'
      by_cases hc : (st.node (st.failureFn xp)).mapsAt = (st.node x).mapsAt ∧
          (st.node (st.failureFn xp)).mapsAt < st.ilMap.length
      · rw [if_pos hc] at hy'
        have hmem := List.mem_of_mem_filter hy'
        have hcell : y ∈ st.ilCell (st.failureFn xp) := hmem
        have := hd.ilD (st.failureFn xp) y (failureFn_real hw xp) hcell
        have hsame : d x = d (st.failureFn xp) := by
          have h1 : (st.node x).mapsAt = x := hx.2
          have h2 : (st.node (st.failureFn xp)).mapsAt = st.failureFn xp :=
            (failureFn_real hw xp).2
          have hfx : st.failureFn xp = x := by rw [← h1, ← h2, hc.1]
          rw [hfx]
        rw [hsame]
        exact this
      · rw [if_neg hc] at hy'
        exact hd.ilD x y hx hy'
    · intro x hx hne; exact hd.posD x hx hne
  have hreal1 : ∀ y, RealN st1 y ↔ RealN st y := fun y => Iff.rfl
  set st2 := st1.setLps xp np with hst2
  have hw2 : Wf st2 := by
    constructor
    · intro j p hp
      rw [chMapGetD_setLps] at hp
      exact ⟨(RealN_setLps st1 xp np _).mpr (hw1.chRaw j p hp).1, (hw1.chRaw j p hp).2⟩
    · intro j x hx
      rw [ilMapGetD_setLps] at hx
      exact ⟨(RealN_setLps st1 xp np _).mpr (hw1.ilRaw j x hx).1, (hw1.ilRaw j x hx).2⟩
    · intro x; rw [rootA_setLps]; exact hw1.rootA0 x
    · rw [length_setLps]; exact hw1.rootLen
    · rw [mapsAt_setLps]; exact hw1.rootMaps
    · rw [node_setLps_ne st1 xp np 0 (fun h0 => hxp0 h0.symm)]
      exact hw1.rootLps
    · intro x m hm
      rw [lps_setLps] at hm
      by_cases hxx : xp = x ∧ xp < st1.nodes.length
      · rw [if_pos hxx] at hm
        cases hm
        exact (RealN_setLps st1 xp np _).mpr hnp
      · rw [if_neg hxx] at hm
        exact (RealN_setLps st1 xp np _).mpr (hw1.lpsReal x m hm)
    · show st2.chMap.length = st2.nodes.length
      rw [length_setLps]
      exact hw1.chLen
    · show st2.ilMap.length = st2.nodes.length
      rw [length_setLps]
      exact hw1.ilLen
  have hd2 : DepD st2 d := by
    constructor
    · exact hd1.d0
    · intro x hx p hp
      rw [chCell_setLps] at hp
      exact hd1.chD x ((RealN_setLps st1 xp np x).mp hx) p hp
    · intro x m hx hm
      rw [lps_setLps] at hm
      by_cases hxx : xp = x ∧ xp < st1.nodes.length
      · rw [if_pos hxx] at hm
        cases hm
        rw [← hxx.1]
        exact hdd
      · rw [if_neg hxx] at hm
        exact hd1.lpsD x m ((RealN_setLps st1 xp np x).mp hx) hm
    · intro x y hx hy
      rw [ilCell_setLps] at hy
      exact hd1.ilD x y ((RealN_setLps st1 xp np x).mp hx) hy
    · intro x hx hne
      exact hd1.posD x ((RealN_setLps st1 xp np x).mp hx) hne
  have hnp2 : RealN st2 np := (RealN_setLps st1 xp np np).mpr hnp
  have hxp2 : RealN st2 xp := (RealN_setLps st1 xp np xp).mpr hxp
  constructor
  · constructor
    · intro j p hp
      exact ⟨(hw2.chRaw j p hp).1, (hw2.chRaw j p hp).2⟩
    · intro j x hx
      rw [ilMapGetD_putIl] at hx
      by_cases hc : (st2.node np).mapsAt = j ∧ (st2.node np).mapsAt < st2.ilMap.length
      · rw [if_pos hc] at hx
        rcases mem_insertSetN.mp hx with rfl | hx
        · exact ⟨hxp2, hxp0⟩
        · exact ⟨(hw2.ilRaw _ _ hx).1, (hw2.ilRaw _ _ hx).2⟩
      · rw [if_neg hc] at hx
        exact ⟨(hw2.ilRaw j x hx).1, (hw2.ilRaw j x hx).2⟩
    · intro x; exact hw2.rootA0 x
    · exact hw2.rootLen
    · exact hw2.rootMaps
    · exact hw2.rootLps
    · intro x m hm; exact hw2.lpsReal x m hm
    · exact hw2.chLen
    · show (st2.putIl np xp).ilMap.length = st2.nodes.length
      rw [length_ilMap_putIl]
      exact hw2.ilLen
  refine ⟨?_, ?_, ?_, ?_⟩
  · constructor
    · exact hd2.d0
    · intro x hx p hp; exact hd2.chD x hx p hp
    · intro x m hx hm; exact hd2.lpsD x m hx hm
    · intro x y hx hy
      have hy' : y ∈ (st2.putIl np xp).ilMap.getD
          (((st2.putIl np xp).node x).mapsAt) [] := hy
      rw [node_putIl, ilMapGetD_putIl] at hy'
      by_cases hc : (st2.node np).mapsAt = (st2.node x).mapsAt ∧
          (st2.node np).mapsAt < st2.ilMap.length
      · rw [if_pos hc] at hy'
        have hxnp : np = x := by
          rw [← hnp2.2, ← hx.2]
          exact hc.1
        rcases mem_insertSetN.mp hy' with rfl | hy2
        · rw [← hxnp]
          exact hdd
        · rw [← hxnp]
          exact hd2.ilD np y hnp2 hy2
      · rw [if_neg hc] at hy'
        exact hd2.ilD x y hx hy'
    · intro x hx hne; exact hd2.posD x hx hne
  · show (st2.putIl np xp).nodes.length = st.nodes.length
    rw [length_putIl, length_setLps, length_delIl]
  · rfl
  · intro y
    rw [node_putIl, mapsAt_setLps, node_delIl]

/-- `completeInverseFn`'s recursion preserves the invariants whenever the
new target `np` is at most as deep as every node it may redirect (which
holds for the inverse-failure set of the new node's parent). -/
theorem cifGo_sound (c : Char) (np : Nat) :
    ∀ (fuel : Nat) (st : STrie) (l : List Nat) (d : Nat → Nat),
      Wf st → DepD st d → RealN st np → np ≠ 0 →
      (∀ x ∈ l, RealN st x ∧ x ≠ 0 ∧ d np ≤ d x) →
      ∀ st', cifGo c np fuel st l = some st' →
        Wf st' ∧ DepD st' d ∧ st'.nodes.length = st.nodes.length ∧
        st'.chMap = st.chMap ∧ (∀ x, (st'.node x).mapsAt = (st.node x).mapsAt) := by
  intro fuel
  induction fuel with
  | zero =>
    intro st l d hw hd _ _ _ st' h
    cases l with
    | nil =>
      cases h
      exact ⟨hw, hd, rfl, rfl, fun _ => rfl⟩
    | cons x xs => simp [cifGo] at h
  | succ f ih =>
    intro st l d hw hd hnp hnp0 hl st' h
    cases l with
    | nil =>
      cases h
      exact ⟨hw, hd, rfl, rfl, fun _ => rfl⟩
    | cons x xs =>
      obtain ⟨hx, hx0, hxd⟩ := hl x (List.mem_cons_self _ _)
      simp only [cifGo] at h
      split at h
      · rename_i xp hxp
        have hmem : (c, xp) ∈ st.chCell x := lookupA_mem hxp
        have hxpr := hw.chRaw _ _ hmem
        have hxpd : d xp = d x + 1 := hd.chD x hx (c, xp) hmem
        have hdd : d np < d xp := by
          rw [hxpd]
          exact Nat.lt_succ_of_le hxd
        obtain ⟨hw3, hd3, hlen3, hch3, hm3⟩ :=
          redirect_sound hw hd xp np hxpr.1 hxpr.2 hnp hnp0 hdd
        have hreal3 := RealN_of_frame hlen3 hm3
        obtain ⟨hw', hd', hlen', hch', hm'⟩ :=
          ih _ xs d hw3 hd3 ((hreal3 np).mpr hnp) hnp0
            (fun y hy => ⟨(hreal3 y).mpr (hl y (List.mem_cons_of_mem _ hy)).1,
              (hl y (List.mem_cons_of_mem _ hy)).2.1,
              (hl y (List.mem_cons_of_mem _ hy)).2.2⟩) st' h
        refine ⟨hw', hd', by rw [hlen', hlen3], by rw [hch', hch3], ?_⟩
        intro z
        rw [hm' z, hm3 z]
      · rename_i hnone
        split at h
        · cases h
        · rename_i stm hstm
          obtain ⟨hwm, hdm, hlenm, hchm, hmm⟩ :=
            ih _ (st.ilCell x) d hw hd hnp hnp0
              (fun y hy => ⟨(hw.ilRaw _ _ hy).1, (hw.ilRaw _ _ hy).2,
                le_trans hxd (Nat.le_of_lt (hd.ilD x y hx hy))⟩) stm hstm
          have hrealm := RealN_of_frame hlenm hmm
          obtain ⟨hw', hd', hlen', hch', hm'⟩ :=
            ih _ xs d hwm hdm ((hrealm np).mpr hnp) hnp0
              (fun y hy => ⟨(hrealm y).mpr (hl y (List.mem_cons_of_mem _ hy)).1,
                (hl y (List.mem_cons_of_mem _ hy)).2.1,
                (hl y (List.mem_cons_of_mem _ hy)).2.2⟩) st' h
          refine ⟨hw', hd', by rw [hlen', hlenm], by rw [hch', hchm], ?_⟩
          intro z
          rw [hm' z, hmm z]

theorem node_oob (st : STrie) (x : Nat) (h : st.nodes.length ≤ x) :
    st.node x = default :=
  List.getD_eq_default _ _ h

theorem chMapLen_alloc (st : STrie) (n : Node) :
    (allocNode st n).chMap.length = st.chMap.length + 1 := by
  simp [allocNode]

theorem ilMapLen_alloc (st : STrie) (n : Node) :
    (allocNode st n).ilMap.length = st.ilMap.length + 1 := by
  simp [allocNode]

theorem chCell_alloc_new (st : STrie) (n : Node) (h : n.mapsAt = st.nodes.length)
    (hlen : st.chMap.length = st.nodes.length) :
    (allocNode st n).chCell st.nodes.length = [] := by
  show (allocNode st n).chMap.getD ((allocNode st n).node st.nodes.length).mapsAt [] = []
  rw [node_alloc_new, h, ← hlen]
  exact getD_append_len st.chMap [] []

theorem ilCell_alloc_new (st : STrie) (n : Node) (h : n.mapsAt = st.nodes.length)
    (hlen : st.ilMap.length = st.nodes.length) :
    (allocNode st n).ilCell st.nodes.length = [] := by
  show (allocNode st n).ilMap.getD ((allocNode st n).node st.nodes.length).mapsAt [] = []
  rw [node_alloc_new, h, ← hlen]
  exact getD_append_len st.ilMap [] []

theorem chCell_alloc_old (st : STrie) (n : Node) (a : Nat) (h : a < st.nodes.length) :
    (allocNode st n).chCell a = st.chCell a := by
  show (allocNode st n).chMap.getD ((allocNode st n).node a).mapsAt [] = _
  rw [node_alloc_old st n a h, chMapGetD_alloc]
  rfl

theorem ilCell_alloc_old (st : STrie) (n : Node) (a : Nat) (h : a < st.nodes.length) :
    (allocNode st n).ilCell a = st.ilCell a := by
  show (allocNode st n).ilMap.getD ((allocNode st n).node a).mapsAt [] = _
  rw [node_alloc_old st n a h, ilMapGetD_alloc]
  rfl

theorem chCell_putCh_real {st : STrie} (b : Nat) (c : Char) (v a : Nat)
    (hb : RealN st b) (ha : RealN st a) (hlen : st.chMap.length = st.nodes.length) :
    (st.putCh b c v).chCell a =
      if a = b then upsertA (st.chCell b) c v else st.chCell a := by
  show (st.putCh b c v).chMap.getD ((st.putCh b c v).node a).mapsAt [] = _
  rw [node_putCh, ha.2, chMapGetD_putCh, hb.2]
  by_cases hab : a = b
  · rw [if_pos hab, if_pos ⟨hab.symm, by rw [hlen]; exact hb.1⟩]
  · rw [if_neg hab, if_neg (fun hc => hab hc.1.symm)]
    unfold STrie.chCell
    rw [ha.2]

/-- Registering a node in a strictly deeper-or-redirected position of the
inverse map keeps the invariants. -/
theorem putIl_sound {st : STrie} {d : Nat → Nat} (hw : Wf st) (hd : DepD st d)
    (t v : Nat) (ht : RealN st t) (hv : RealN st v) (hv0 : v ≠ 0) (hdd : d t < d v) :
    Wf (st.putIl t v) ∧ DepD (st.putIl t v) d := by
  constructor
  · constructor
    · intro j p hp
      exact ⟨(hw.chRaw j p hp).1, (hw.chRaw j p hp).2⟩
    · intro j x hx
      rw [ilMapGetD_putIl] at hx
      by_cases hc : (st.node t).mapsAt = j ∧ (st.node t).mapsAt < st.ilMap.length
      · rw [if_pos hc] at hx
        rcases mem_insertSetN.mp hx with rfl | hx
        · exact ⟨hv, hv0⟩
        · exact ⟨(hw.ilRaw _ _ hx).1, (hw.ilRaw _ _ hx).2⟩
      · rw [if_neg hc] at hx
        exact ⟨(hw.ilRaw j x hx).1, (hw.ilRaw j x hx).2⟩
    · intro x; exact hw.rootA0 x
    · exact hw.rootLen
    · exact hw.rootMaps
    · exact hw.rootLps
    · intro x m hm; exact hw.lpsReal x m hm
    · exact hw.chLen
    · show (st.putIl t v).ilMap.length = st.nodes.length
      rw [length_ilMap_putIl]
      exact hw.ilLen
  · constructor
    · exact hd.d0
    · intro x hx p hp; exact hd.chD x hx p hp
    · intro x m hx hm; exact hd.lpsD x m hx hm
    · intro x y hx hy
      have hy' : y ∈ (st.putIl t v).ilMap.getD (((st.putIl t v).node x).mapsAt) [] := hy
      rw [node_putIl, ilMapGetD_putIl] at hy'
      by_cases hc : (st.node t).mapsAt = (st.node x).mapsAt ∧
          (st.node t).mapsAt < st.ilMap.length
      · rw [if_pos hc] at hy'
        have hxt : t = x := by
          rw [← ht.2, ← hx.2]
          exact hc.1
        rcases mem_insertSetN.mp hy' with rfl | hy2
        · rw [← hxt]
          exact hdd
        · rw [← hxt]
          exact hd.ilD t y ht hy2
      · rw [if_neg hc] at hy'
        exact hd.ilD x y hx hy'
    · intro x hx hne; exact hd.posD x hx hne

/-- Allocating a fresh node (own cell, root pointer, nil failure link)
preserves the invariants; the depth certificate is extended at the new
address. -/
theorem Wf_alloc_fresh {st : STrie} (hw : Wf st) (n : Node)
    (hr : n.rootA = 0) (hl : n.lps = none) :
    Wf (allocNode st n) := by
  constructor
  · intro j p hp
    rw [chMapGetD_alloc] at hp
    exact ⟨RealN_alloc_old st n _ (hw.chRaw j p hp).1, (hw.chRaw j p hp).2⟩
  · intro j x hx
    rw [ilMapGetD_alloc] at hx
    exact ⟨RealN_alloc_old st n _ (hw.ilRaw j x hx).1, (hw.ilRaw j x hx).2⟩
  · intro x
    by_cases hx : x < st.nodes.length
    · rw [node_alloc_old st n x hx]; exact hw.rootA0 x
    · by_cases hx2 : x = st.nodes.length
      · rw [hx2, node_alloc_new]; exact hr
      · have : st.nodes.length + 1 ≤ x :=
          Nat.succ_le_of_lt (Nat.lt_of_le_of_ne (Nat.le_of_not_lt hx) (fun h => hx2 h.symm))
        rw [node_oob _ x (by rw [length_alloc]; exact this)]
        rfl
  · rw [length_alloc]; exact Nat.succ_pos _
  · rw [node_alloc_old st n 0 hw.rootLen]; exact hw.rootMaps
  · rw [node_alloc_old st n 0 hw.rootLen]; exact hw.rootLps
  · intro x m hmm
    by_cases hx : x < st.nodes.length
    · rw [node_alloc_old st n x hx] at hmm
      exact RealN_alloc_old st n _ (hw.lpsReal x m hmm)
    · by_cases hx2 : x = st.nodes.length
      · rw [hx2, node_alloc_new, hl] at hmm
        cases hmm
      · have : st.nodes.length + 1 ≤ x :=
          Nat.succ_le_of_lt (Nat.lt_of_le_of_ne (Nat.le_of_not_lt hx) (fun h => hx2 h.symm))
        rw [node_oob _ x (by rw [length_alloc]; exact this)] at hmm
        cases hmm
  · rw [chMapLen_alloc, length_alloc, hw.chLen]
  · rw [ilMapLen_alloc, length_alloc, hw.ilLen]

theorem DepD_alloc_fresh {st : STrie} {d : Nat → Nat} (hw : Wf st) (hd : DepD st d)
    (n : Node) (hm : n.mapsAt = st.nodes.length) (hl : n.lps = none) (k : Nat) (hk : 1 ≤ k) :
    DepD (allocNode st n) (Function.update d st.nodes.length k) := by
  have hlen0 : st.nodes.length ≠ 0 := Nat.pos_iff_ne_zero.mp hw.rootLen
  have hsplit : ∀ x, RealN (allocNode st n) x → x < st.nodes.length ∨ x = st.nodes.length := by
    intro x hx
    have := hx.1
    rw [length_alloc] at this
    rcases Nat.lt_succ_iff_lt_or_eq.mp this with h | h
    · exact Or.inl h
    · exact Or.inr h
  have hrealold : ∀ x, x < st.nodes.length → RealN (allocNode st n) x → RealN st x := by
    intro x hlt hx
    refine ⟨hlt, ?_⟩
    have := hx.2
    rwa [node_alloc_old st n x hlt] at this
  constructor
  · rw [Function.update_noteq (fun h => hlen0 h.symm)]
    exact hd.d0
  · intro x hx p hp
    rcases hsplit x hx with hlt | rfl
    · have hxo := hrealold x hlt hx
      rw [chCell_alloc_old st n x hlt] at hp
      have hpr := hw.chRaw _ _ hp
      have hplt : p.2 < st.nodes.length := hpr.1.1
      rw [Function.update_noteq (Nat.ne_of_lt hplt), Function.update_noteq (Nat.ne_of_lt hlt)]
      exact hd.chD x hxo p hp
    · rw [chCell_alloc_new st n hm hw.chLen] at hp
      simp at hp
  · intro x m hx hmm
    rcases hsplit x hx with hlt | rfl
    · have hxo := hrealold x hlt hx
      rw [node_alloc_old st n x hlt] at hmm
      have hmr := hw.lpsReal x m hmm
      rw [Function.update_noteq (Nat.ne_of_lt hmr.1), Function.update_noteq (Nat.ne_of_lt hlt)]
      exact hd.lpsD x m hxo hmm
    · rw [node_alloc_new, hl] at hmm
      cases hmm
  · intro x y hx hy
    rcases hsplit x hx with hlt | rfl
    · have hxo := hrealold x hlt hx
      rw [ilCell_alloc_old st n x hlt] at hy
      have hyr := hw.ilRaw _ _ hy
      rw [Function.update_noteq (Nat.ne_of_lt hyr.1.1), Function.update_noteq (Nat.ne_of_lt hlt)]
      exact hd.ilD x y hxo hy
    · rw [ilCell_alloc_new st n hm hw.ilLen] at hy
      simp at hy
  · intro x hx hne
    rcases hsplit x hx with hlt | rfl
    · have hxo := hrealold x hlt hx
      rw [Function.update_noteq (Nat.ne_of_lt hlt)]
      exact hd.posD x hxo hne
    · rw [Function.update_same]
      exact hk

/-- Adding a child edge to a heap node preserves the invariants when the
child's depth is one more than the parent's. -/
theorem putCh_sound {st : STrie} {d : Nat → Nat} (hw : Wf st) (hd : DepD st d)
    (a : Nat) (c : Char) (v : Nat) (hra : RealN st a) (hrv : RealN st v) (hv0 : v ≠ 0)
    (hdv : d v = d a + 1) :
    Wf (st.putCh a c v) ∧ DepD (st.putCh a c v) d := by
  constructor
  · constructor
    · intro j p hp
      rw [chMapGetD_putCh] at hp
      by_cases hc : (st.node a).mapsAt = j ∧ (st.node a).mapsAt < st.chMap.length
      · rw [if_pos hc] at hp
        rcases mem_upsertA p hp with rfl | hp
        · exact ⟨hrv, hv0⟩
        · exact ⟨(hw.chRaw _ _ hp).1, (hw.chRaw _ _ hp).2⟩
      · rw [if_neg hc] at hp
        exact ⟨(hw.chRaw j p hp).1, (hw.chRaw j p hp).2⟩
    · intro j x hx
      exact ⟨(hw.ilRaw j x hx).1, (hw.ilRaw j x hx).2⟩
    · intro x; exact hw.rootA0 x
    · exact hw.rootLen
    · exact hw.rootMaps
    · exact hw.rootLps
    · intro x m hm; exact hw.lpsReal x m hm
    · show (st.putCh a c v).chMap.length = st.nodes.length
      rw [length_chMap_putCh]
      exact hw.chLen
    · exact hw.ilLen
  · constructor
    · exact hd.d0
    · intro x hx p hp
      rw [chCell_putCh_real a c v x hra hx hw.chLen] at hp
      by_cases hxa : x = a
      · rw [if_pos hxa] at hp
        rcases mem_upsertA p hp with rfl | hp
        · rw [hxa]
          exact hdv
        · rw [hxa]
          exact hd.chD a hra p hp
      · rw [if_neg hxa] at hp
        exact hd.chD x hx p hp
    · intro x m hx hm; exact hd.lpsD x m hx hm
    · intro x y hx hy; exact hd.ilD x y hx hy
    · intro x hx hne; exact hd.posD x hx hne

/-- `enterChild` on a heap-allocated parent preserves the invariants: the
new node enters at depth one below its parent, its failure link lands on a
strictly shallower node, and all redirects keep strict depth decrease. -/
theorem enterChild_sound {st : STrie} {d : Nat → Nat} (hw : Wf st) (hd : DepD st d)
    (a : Nat) (c : Char) (fuel : Nat) (hra : RealN st a) :
    ∀ st' ch, enterChild st a c fuel = some (st', ch) →
      Wf st' ∧ DepD st' (Function.update d st.nodes.length (d a + 1)) ∧
      RealN st' ch ∧ ch = st.nodes.length := by
  intro st' ch h
  set newA := st.nodes.length with hnewA
  set child : Node := ⟨c, false, st.rootOf a, none, newA⟩ with hchild
  set d' := Function.update d newA (d a + 1) with hd'def
  have hcm : child.mapsAt = newA := rfl
  have hcr : child.rootA = 0 := hw.rootA0 a
  have hcl : child.lps = none := rfl
  set st0 := allocNode st child with hst0
  have hw0 : Wf st0 := Wf_alloc_fresh hw child hcr hcl
  have hd0 : DepD st0 d' := DepD_alloc_fresh hw hd child hcm hcl (d a + 1) (Nat.succ_pos _)
  have hra0 : RealN st0 a := RealN_alloc_old st child a hra
  have hrn0 : RealN st0 newA := RealN_alloc_new st child hcm
  have hnewA0 : newA ≠ 0 := Nat.pos_iff_ne_zero.mp hw.rootLen
  have hane : a ≠ newA := Nat.ne_of_lt hra.1
  have hdnew : d' newA = d a + 1 := Function.update_same _ _ _
  have hdaold : d' a = d a := Function.update_noteq hane _ _
  set st1 := st0.putCh a c newA with hst1
  obtain ⟨hw1, hd1⟩ := putCh_sound hw0 hd0 a c newA hra0 hrn0 hnewA0 (by rw [hdnew, hdaold])
  have hra1 : RealN st1 a := hra0
  have hrn1 : RealN st1 newA := hrn0
  have hsome : st1.getCh a c = some newA := by
    show lookupA (st1.chCell a) c = some newA
    rw [show st1.chCell a = upsertA (st0.chCell a) c newA from by
      rw [chCell_putCh_real a c newA a hra0 hra0 hw0.chLen, if_pos rfl]]
    exact lookupA_upsert_self _ _ _
  unfold enterChild at h
  dsimp only at h
  split at h
  · cases h
  · rename_i st2 hstep
    obtain ⟨hw2, hd2, hlen2, hch2, hil2, hm2⟩ :=
      cFF_sound hw1 hd1 a c fuel (Or.inr ⟨hra1, newA, hsome⟩) st2 hstep
    have hreal2 := RealN_of_frame hlen2 hm2
    have hrn2 : RealN st2 newA := (hreal2 newA).mpr hrn1
    have hra2 : RealN st2 a := (hreal2 a).mpr hra1
    have hkey : ∀ st3, Wf st3 → DepD st3 d' → RealN st3 newA → RealN st3 a →
        (match completeInverseFn st3 a newA c fuel with
          | none => none
          | some st4 => some (st4, newA)) = some (st', ch) →
        Wf st' ∧ DepD st' d' ∧ RealN st' ch ∧ ch = newA := by
      intro st3 hw3 hd3 hrn3 hra3 h3
      split at h3
      · cases h3
      · rename_i st4 hstep2
        have hlist : ∀ x ∈ st3.ilCell a, RealN st3 x ∧ x ≠ 0 ∧ d' newA ≤ d' x := by
          intro x hx
          refine ⟨(hw3.ilRaw _ _ hx).1, (hw3.ilRaw _ _ hx).2, ?_⟩
          have := hd3.ilD a x hra3 hx
          rw [show d' newA = d' a + 1 from by rw [hdnew, hdaold]]
          exact Nat.succ_le_of_lt this
        obtain ⟨hw4, hd4, hlen4, _, hm4⟩ :=
          cifGo_sound c newA fuel st3 (st3.ilCell a) d' hw3 hd3 hrn3 hnewA0 hlist st4 hstep2
        simp only [Option.some.injEq, Prod.mk.injEq] at h3
        obtain ⟨rfl, rfl⟩ := h3
        exact ⟨hw4, hd4, (RealN_of_frame hlen4 hm4 _).mpr hrn3, rfl⟩
    rcases hlp : (st2.node newA).lps with _ | t
    · rw [hlp] at h
      dsimp only at h
      exact hkey st2 hw2 hd2 hrn2 hra2 h
    · rw [hlp] at h
      dsimp only at h
      have hreal_t : RealN st2 t := hw2.lpsReal newA t hlp
      have hdt : d' t < d' newA := hd2.lpsD newA t hrn2 hlp
      obtain ⟨hw3, hd3⟩ := putIl_sound hw2 hd2 t newA hreal_t hrn2 hnewA0 hdt
      exact hkey _ hw3 hd3 hrn2 hra2 h

/-- The `enterInTrie` walk from a heap-allocated cursor preserves the
invariants (the depth certificate may grow by the freshly created
nodes). -/
theorem eitGo_sound (t : String) :
    ∀ (cs : List Char) (fuel : Nat) (st : STrie) (cur : Nat) (d : Nat → Nat),
      Wf st → DepD st d → RealN st cur →
      ∀ st', eitGo fuel t st cur cs = some st' → ∃ d2, Wf st' ∧ DepD st' d2 := by
  intro cs
  induction cs with
  | nil =>
    intro fuel st cur d hw hd _ st' h
    have h' : enterOutput (st.setWord cur) cur t fuel = some st' := h
    unfold enterOutput at h'
    obtain ⟨hn, hc, hi⟩ := eoGo_frame fuel _ _ _ _ h'
    exact ⟨d, Wf_of_eq (Wf_setWord hw cur) hn hc hi,
      DepD_of_eq (DepD_setWord hd cur) hn hc hi⟩
  | cons c cs ih =>
    intro fuel st cur d hw hd hcur st' h
    simp only [eitGo] at h
    split at h
    · split at h
      · cases h
      · rename_i p hec
        obtain ⟨hw1, hd1, hch1, _⟩ := enterChild_sound hw hd cur c fuel hcur _ _ hec
        exact ih fuel _ _ _ hw1 hd1 hch1 st' h
    · rename_i hroot
      rcases hq : st.getCh cur c with _ | b
      · exfalso
        apply hroot
        have hnx : st.getChild cur c = 0 := by
          unfold STrie.getChild
          rw [hq]
          show st.rootOf cur = 0
          exact hw.rootA0 cur
        rw [hnx]
        have := isRootN_zero st (hw.rootA0 0)
        exact this
      · have hb := hw.chRaw _ _ (lookupA_mem hq)
        have hnx : st.getChild cur c = b := by
          unfold STrie.getChild
          rw [hq]
          rfl
        rw [hnx] at h
        exact ih fuel st b d hw hd hb.1 st' h

/-- Batch construction (`buildTrie`) from the root preserves the
invariants. -/
theorem buildTrie_sound :
    ∀ (strs : List String) (fuel : Nat) (st : STrie) (d : Nat → Nat),
      Wf st → DepD st d →
      ∀ st', buildTrie st 0 strs fuel = some st' → ∃ d2, Wf st' ∧ DepD st' d2 := by
  intro strs
  induction strs with
  | nil =>
    intro fuel st d hw hd st' h
    cases h
    exact ⟨d, hw, hd⟩
  | cons s rest ih =>
    intro fuel st d hw hd st' h
    simp only [buildTrie] at h
    split at h
    · cases h
    · rename_i st1 h1
      obtain ⟨d1, hw1, hd1⟩ :=
        eitGo_sound s s.data fuel st 0 d hw hd ⟨hw.rootLen, hw.rootMaps⟩ st1 h1
      exact ih fuel st1 d1 hw1 hd1 st' h

/-- Processing one dequeued node of `buildFailureFn` preserves the
invariants without changing the depth certificate, the children map, or
any cell address. -/
theorem bffProcess_sound (a : Nat) (fuel : Nat) :
    ∀ (l : List (Char × Nat)) (st : STrie) (d : Nat → Nat), Wf st → DepD st d →
      RealN st a →
      (∀ p ∈ l, ∃ u, st.getCh a p.1 = some u) →
      (∀ p ∈ l, RealN st p.2) →
      ∀ st' pushed, bffProcess a fuel st l = some (st', pushed) →
        Wf st' ∧ DepD st' d ∧ st'.nodes.length = st.nodes.length ∧
        st'.chMap = st.chMap ∧ (∀ x, (st'.node x).mapsAt = (st.node x).mapsAt) ∧
        ∀ q ∈ pushed, RealN st' q := by
  intro l
  induction l with
  | nil =>
    intro st d hw hd _ _ _ st' pushed h
    simp only [bffProcess, Option.some.injEq, Prod.mk.injEq] at h
    obtain ⟨rfl, rfl⟩ := h
    exact ⟨hw, hd, rfl, rfl, fun _ => rfl, by simp⟩
  | cons p rest ih =>
    intro st d hw hd hra hpres hreal st' pushed h
    obtain ⟨c, ch⟩ := p
    simp only [bffProcess] at h
    split at h
    · cases h
    · rename_i st1 h1
      obtain ⟨hw1, hd1, hlen1, hch1, hil1, hm1⟩ :=
        cFF_sound hw hd a c fuel
          (Or.inr ⟨hra, hpres (c, ch) (List.mem_cons_self _ _)⟩) st1 h1
      have hreal1 := RealN_of_frame hlen1 hm1
      have hgetCh1 : ∀ c', st1.getCh a c' = st.getCh a c' := by
        intro c'
        show lookupA (st1.chMap.getD ((st1.node a).mapsAt) []) c' = _
        rw [hch1, hm1]
        rfl
      rcases h2def : bffProcess a fuel st1 rest with _ | pr
      · rw [h2def] at h
        cases h
      · rw [h2def] at h
        obtain ⟨st2, pushed2⟩ := pr
        dsimp only at h
        obtain ⟨hw2, hd2, hlen2, hch2, hm2, hpush2⟩ :=
          ih st1 d hw1 hd1 ((hreal1 a).mpr hra)
            (fun q hq => by
              obtain ⟨u, hu⟩ := hpres q (List.mem_cons_of_mem _ hq)
              exact ⟨u, by rw [hgetCh1]; exact hu⟩)
            (fun q hq => (hreal1 q.2).mpr (hreal q (List.mem_cons_of_mem _ hq)))
            st2 pushed2 h2def
        simp only [Option.some.injEq, Prod.mk.injEq] at h
        obtain ⟨rfl, rfl⟩ := h
        refine ⟨hw2, hd2, by rw [hlen2, hlen1], by rw [hch2, hch1], ?_, ?_⟩
        · intro x
          rw [hm2 x, hm1 x]
        · intro q hq
          rcases List.mem_cons.mp hq with rfl | hq
          · exact (RealN_of_frame hlen2 hm2 q).mpr
              ((hreal1 q).mpr (hreal (c, q) (List.mem_cons_self _ _)))
          · exact hpush2 q hq

/-- The breadth-first queue of `buildFailureFn` preserves the invariants
and the depth certificate. -/
theorem bffQueue_sound :
    ∀ (fuel : Nat) (st : STrie) (q : List Nat) (d : Nat → Nat), Wf st → DepD st d →
      (∀ x ∈ q, RealN st x) →
      ∀ st', bffQueue fuel st q = some st' → Wf st' ∧ DepD st' d := by
  intro fuel
  induction fuel with
  | zero =>
    intro st q d hw hd _ st' h
    cases q with
    | nil => cases h; exact ⟨hw, hd⟩
    | cons a rest => simp [bffQueue] at h
  | succ f ih =>
    intro st q d hw hd hq st' h
    cases q with
    | nil => cases h; exact ⟨hw, hd⟩
    | cons a rest =>
      simp only [bffQueue] at h
      rcases h1def : bffProcess a (f + 1) st (st.chCell a) with _ | pr
      · rw [h1def] at h
        cases h
      · rw [h1def] at h
        obtain ⟨st1, pushed⟩ := pr
        dsimp only at h
        have hra := hq a (List.mem_cons_self _ _)
        obtain ⟨hw1, hd1, hlen1, _, hm1, hpush⟩ :=
          bffProcess_sound a (f + 1) (st.chCell a) st d hw hd hra
            (fun p hp => lookupA_isSome_of_mem hp)
            (fun p hp => (hw.chRaw _ _ hp).1)
            st1 pushed h1def
        refine ih st1 (rest ++ pushed) d hw1 hd1 ?_ st' h
        intro x hx
        rcases List.mem_append.mp hx with hx | hx
        · exact (RealN_of_frame hlen1 hm1 x).mpr (hq x (List.mem_cons_of_mem _ hx))
        · exact hpush x hx

/-- The invariants hold in the freshly initialized automaton. -/
theorem Wf_emptyTrie : Wf emptyTrie := by
  have hch : ∀ j, (emptyTrie.chMap.getD j ([] : List (Char × Nat))) = [] := by
    intro j
    cases j <;> rfl
  have hil : ∀ j, (emptyTrie.ilMap.getD j ([] : List Nat)) = [] := by
    intro j
    cases j <;> rfl
  constructor
  · intro j p hp; rw [hch] at hp; simp at hp
  · intro j x hx; rw [hil] at hx; simp at hx
  · intro a; cases a <;> rfl
  · exact Nat.one_pos
  · rfl
  · rfl
  · intro a m hm
    cases a with
    | zero => cases hm
    | succ n => cases hm
  · rfl
  · rfl

theorem DepD_emptyTrie : DepD emptyTrie (fun _ => 0) := by
  have hch : ∀ j, (emptyTrie.chMap.getD j ([] : List (Char × Nat))) = [] := by
    intro j
    cases j <;> rfl
  have hil : ∀ j, (emptyTrie.ilMap.getD j ([] : List Nat)) = [] := by
    intro j
    cases j <;> rfl
  constructor
  · rfl
  · intro a _ p hp
    have : emptyTrie.chCell a = [] := hch _
    rw [this] at hp
    simp at hp
  · intro a m ha hm
    rcases ha with ⟨hlt, _⟩
    have : a = 0 := by
      have : a < 1 := hlt
      exact Nat.lt_one_iff.mp this
    subst this
    cases hm
  · intro a x ha hx
    have : emptyTrie.ilCell a = [] := hil _
    rw [this] at hx
    simp at hx
  · intro a ha hne
    rcases ha with ⟨hlt, _⟩
    exact absurd (Nat.lt_one_iff.mp hlt) hne

/-- `New` produces an automaton satisfying the invariants. -/
theorem New_sound (strs : List String) (fuel : Nat) :
    ∀ st', New strs fuel = some st' → ∃ d, Wf st' ∧ DepD st' d := by
  intro st' h
  unfold New at h
  split at h
  · cases h
  · rename_i st1 h1
    obtain ⟨d1, hw1, hd1⟩ :=
      buildTrie_sound strs fuel emptyTrie (fun _ => 0) Wf_emptyTrie DepD_emptyTrie st1 h1
    unfold buildFailureFn at h
    refine ⟨d1, bffQueue_sound fuel st1 _ d1 hw1 hd1 ?_ st' h⟩
    intro x hx
    obtain ⟨p, hp, rfl⟩ := List.mem_map.mp hx
    exact (hw1.chRaw _ _ hp).1

theorem chMap_putIl (st : STrie) (b x : Nat) : (st.putIl b x).chMap = st.chMap := rfl

/-- Allocating the value-receiver copy of the root keeps the raw
well-formedness (the copy is a non-real record sharing the root's
cells). -/
theorem DepD_alloc_copy {st : STrie} {d : Nat → Nat} (hw : Wf st) (hd : DepD st d) :
    DepD (allocNode st (st.node 0)) d := by
  have hreal : ∀ x, RealN (allocNode st (st.node 0)) x → RealN st x := by
    intro x hx
    have hx1 := hx.1
    rw [length_alloc] at hx1
    rcases Nat.lt_succ_iff_lt_or_eq.mp hx1 with hlt | heq
    · refine ⟨hlt, ?_⟩
      have hx2 := hx.2
      rwa [node_alloc_old st (st.node 0) x hlt] at hx2
    · exfalso
      have hx2 := hx.2
      rw [heq, node_alloc_new, hw.rootMaps] at hx2
      exact Nat.pos_iff_ne_zero.mp hw.rootLen hx2.symm
  constructor
  · exact hd.d0
  · intro a ha p hp
    have ha' := hreal a ha
    rw [chCell_alloc_old st (st.node 0) a ha'.1] at hp
    exact hd.chD a ha' p hp
  · intro a m ha hm
    have ha' := hreal a ha
    rw [node_alloc_old st (st.node 0) a ha'.1] at hm
    exact hd.lpsD a m ha' hm
  · intro a x ha hx
    have ha' := hreal a ha
    rw [ilCell_alloc_old st (st.node 0) a ha'.1] at hx
    exact hd.ilD a x ha' hx
  · intro a ha hne
    exact hd.posD a (hreal a ha) hne

/-- The `completeFailureFn` chain walk breaks out on its first iteration
whenever its break condition holds there. -/
theorem cffLoop_break (st : STrie) (c : Char) (f m : Nat)
    (hcond : (st.isRootN (st.failureFn m) ||
      !(st.isRootN (st.getChild (st.failureFn m) c))) = true) :
    cffLoop st c (f + 1) m = some (st.getChild (st.failureFn m) c) := by
  have hdef : cffLoop st c (f + 1) m =
      if st.isRootN (st.failureFn m) ||
          !(st.isRootN (st.getChild (st.failureFn m) c)) then
        some (st.getChild (st.failureFn m) c)
      else cffLoop st c f (st.failureFn m) := rfl
  rw [hdef, if_pos hcond]

/-- A `completeInverseFn` redirect of any node onto the poisoned node
leaves the poisoned shape intact (when the redirected node is the
poisoned node itself, the deleted self-link is put right back). -/
theorem Pois_redirect {st : STrie} {g : Nat} (hp : Pois st g) (xp : Nat) :
    Pois (((st.delIl (st.failureFn xp) xp).setLps xp g).putIl g xp) g := by
  have hmaps2g : (((st.delIl (st.failureFn xp) xp).setLps xp g).node g).mapsAt = g := by
    rw [mapsAt_setLps, node_delIl]
    exact hp.mapsSelf
  have hil2len : ((st.delIl (st.failureFn xp) xp).setLps xp g).ilMap.length = st.ilMap.length := by
    show (st.delIl (st.failureFn xp) xp).ilMap.length = st.ilMap.length
    exact length_ilMap_delIl st (st.failureFn xp) xp
  refine ⟨hp.gne, ?_, ?_, ?_, ?_, ?_, ?_, ?_, ?_⟩
  · rw [length_putIl, length_setLps, length_delIl]
    exact hp.glt
  · intro x
    rw [node_putIl, rootA_setLps, node_delIl]
    exact hp.rootA0 x
  · rw [node_putIl, lps_setLps]
    by_cases hxg : xp = g ∧ xp < (st.delIl (st.failureFn xp) xp).nodes.length
    · rw [if_pos hxg]
    · rw [if_neg hxg, node_delIl]
      exact hp.lpsSelf
  · rw [node_putIl, mapsAt_setLps, node_delIl]
    exact hp.mapsSelf
  · rw [ilMapGetD_putIl,
      if_pos ⟨hmaps2g, by rw [hmaps2g, hil2len, hp.ilLen]; exact hp.glt⟩]
    by_cases hxg : xp = g
    · subst hxg
      exact insertSetN_self _ xp
    · refine insertSetN_keeps ?_
      have hcell2 : ((st.delIl (st.failureFn xp) xp).setLps xp g).ilCell g =
          (st.delIl (st.failureFn xp) xp).ilMap.getD g [] := by
        unfold STrie.ilCell
        rw [hmaps2g]
        exact ilMapGetD_setLps _ _ _ _
      rw [hcell2, ilMapGetD_delIl]
      by_cases hcon : (st.node (st.failureFn xp)).mapsAt = g ∧
          (st.node (st.failureFn xp)).mapsAt < st.ilMap.length
      · rw [if_pos hcon]
        refine List.mem_filter.mpr ⟨?_, ?_⟩
        · show g ∈ st.ilMap.getD ((st.node (st.failureFn xp)).mapsAt) []
          rw [hcon.1]
          exact hp.ilSelf
        · show decide (g ≠ xp) = true
          exact decide_eq_true (fun hh => hxg hh.symm)
      · rw [if_neg hcon]
        exact hp.ilSelf
  · show st.chMap.getD g [] = []
    exact hp.chEmpty
  · show st.chMap.length = (((st.delIl (st.failureFn xp) xp).setLps xp g).putIl g xp).nodes.length
    rw [length_putIl, length_setLps, length_delIl]
    exact hp.chLen
  · rw [length_ilMap_putIl]
    show (st.delIl (st.failureFn xp) xp).ilMap.length = _
    rw [length_ilMap_delIl, length_putIl, length_setLps, length_delIl]
    exact hp.ilLen

/-- `completeInverseFn`'s walk never repairs the poisoned node: every
redirect it performs preserves the poisoned shape. -/
theorem cifGo_pois (c : Char) (g : Nat) :
    ∀ (fuel : Nat) (st : STrie) (l : List Nat) (st' : STrie),
      Pois st g → cifGo c g fuel st l = some st' → Pois st' g := by
  intro fuel
  induction fuel with
  | zero =>
    intro st l st' hp h
    cases l with
    | nil => cases h; exact hp
    | cons x xs => simp [cifGo] at h
  | succ f ih =>
    intro st l st' hp h
    cases l with
    | nil => cases h; exact hp
    | cons x xs =>
      simp only [cifGo] at h
      split at h
      · rename_i xp hxp
        exact ih _ xs st' (Pois_redirect hp xp) h
      · split at h
        · cases h
        · rename_i stm hstm
          exact ih _ xs st' (ih _ (st.ilCell x) stm hp hstm) h

/-- `enterChild` invoked at a cursor whose record is not the root but
whose failure resolution lands back on the cell just written (the
value-receiver copy of the root, or an already poisoned node) produces a
poisoned child: the fresh node's failure link is itself and it sits in
its own inverse-failure set. -/
theorem enterChild_mk_pois {st : STrie} (a j : Nat) (c : Char)
    (ha0 : a ≠ 0) (halt : a < st.nodes.length)
    (hroot : ∀ x, (st.node x).rootA = 0)
    (hchlen : st.chMap.length = st.nodes.length)
    (hillen : st.ilMap.length = st.nodes.length)
    (hjlt : j < st.nodes.length)
    (hmapsa : (st.node a).mapsAt = j)
    (hmlt : (st.node a).lps.getD 0 < st.nodes.length)
    (hmmaps : (st.node ((st.node a).lps.getD 0)).mapsAt = j)
    (fuel : Nat) :
    ∀ st' ch, enterChild st a c fuel = some (st', ch) → Pois st' ch := by
  intro st' ch h
  unfold enterChild at h
  dsimp only at h
  set newA := st.nodes.length with hnewA
  set child : Node := ⟨c, false, st.rootOf a, none, newA⟩ with hchild
  set st0 := allocNode st child with hst0
  set st1 := st0.putCh a c newA with hst1
  have halt' : a < newA := halt
  have hjlt' : j < newA := hjlt
  have hmlt' : (st.node a).lps.getD 0 < newA := hmlt
  have hnA0 : newA ≠ 0 := Nat.pos_iff_ne_zero.mp (Nat.lt_of_le_of_lt (Nat.zero_le a) halt')
  have hlen0 : st0.nodes.length = newA + 1 := by
    rw [hst0, length_alloc, hnewA]
  have hlen1 : st1.nodes.length = newA + 1 := by
    rw [hst1, length_putCh]
    exact hlen0
  have hnode1_old : ∀ x, x < newA → st1.node x = st.node x := by
    intro x hx
    rw [hst1, node_putCh, hst0]
    exact node_alloc_old st child x (by rw [← hnewA]; exact hx)
  have hnode1_new : st1.node newA = child := by
    rw [hst1, node_putCh, hst0, hnewA]
    exact node_alloc_new st child
  have hrootA1 : ∀ x, (st1.node x).rootA = 0 := by
    intro x
    rcases Nat.lt_trichotomy x newA with hlt | heq | hgt
    · rw [hnode1_old x hlt]
      exact hroot x
    · rw [heq, hnode1_new, hchild]
      exact hroot a
    · rw [node_oob st1 x (by rw [hlen1]; exact hgt)]
      rfl
  have hmaps1a : (st1.node a).mapsAt = j := by
    rw [hnode1_old a halt']
    exact hmapsa
  have hmaps0a : (st0.node a).mapsAt = j := by
    rw [hst0, node_alloc_old st child a (by rw [← hnewA]; exact halt')]
    exact hmapsa
  have hch0len : st0.chMap.length = newA + 1 := by
    rw [hst0, chMapLen_alloc, hchlen, hnewA]
  have hcell0a : st0.chCell a = st.chMap.getD j [] := by
    show st0.chMap.getD ((st0.node a).mapsAt) [] = _
    rw [hmaps0a, hst0, chMapGetD_alloc]
  have hch1j : st1.chMap.getD j [] = upsertA (st.chMap.getD j []) c newA := by
    rw [hst1, chMapGetD_putCh,
      if_pos ⟨hmaps0a, by rw [hmaps0a, hch0len]; exact Nat.lt_succ_of_lt hjlt'⟩, hcell0a]
  have hgetCh1a : st1.getCh a c = some newA := by
    show lookupA (st1.chMap.getD ((st1.node a).mapsAt) []) c = some newA
    rw [hmaps1a, hch1j]
    exact lookupA_upsert_self _ c newA
  have hgc1a : st1.getChild a c = newA := by
    unfold STrie.getChild
    rw [hgetCh1a]
    rfl
  have hmaps1m : (st1.node ((st.node a).lps.getD 0)).mapsAt = j := by
    rw [hnode1_old _ hmlt']
    exact hmmaps
  have hgetCh1m : st1.getCh ((st.node a).lps.getD 0) c = some newA := by
    show lookupA (st1.chMap.getD ((st1.node ((st.node a).lps.getD 0)).mapsAt) []) c = some newA
    rw [hmaps1m, hch1j]
    exact lookupA_upsert_self _ c newA
  have hgc1m : st1.getChild ((st.node a).lps.getD 0) c = newA := by
    unfold STrie.getChild
    rw [hgetCh1m]
    rfl
  have hfail1 : st1.failureFn a = (st.node a).lps.getD 0 := by
    have hr1 : st1.rootOf a = 0 := hrootA1 a
    show ((st1.node a).lps).getD (st1.rootOf a) = _
    rw [hr1, hnode1_old a halt']
  have hnroot1a : st1.isRootN a = false := isRootN_ne_zero st1 a (hrootA1 a) ha0
  have hnroot1N : st1.isRootN newA = false := isRootN_ne_zero st1 newA (hrootA1 newA) hnA0
  have hcond : (st1.isRootN (st1.failureFn a) ||
      !(st1.isRootN (st1.getChild (st1.failureFn a) c))) = true := by
    rw [hfail1, hgc1m, hnroot1N]
    cases st1.isRootN ((st.node a).lps.getD 0) <;> rfl
  split at h
  · cases h
  · rename_i st2 hstep
    unfold completeFailureFn at hstep
    rw [if_neg (by rw [hnroot1a]; exact Bool.false_ne_true)] at hstep
    dsimp only at hstep
    cases fuel with
    | zero =>
      rw [show cffLoop st1 c 0 a = none from rfl] at hstep
      dsimp only at hstep
      exact Option.noConfusion hstep
    | succ f =>
      have hloop : cffLoop st1 c (f + 1) a = some newA := by
        rw [cffLoop_break st1 c f a hcond, hfail1, hgc1m]
      rw [hloop] at hstep
      dsimp only at hstep
      rw [hgc1a] at hstep
      have hst2 : otUnion (st1.setLps newA newA) newA newA = st2 := by
        injection hstep
      subst hst2
      have hfrn : (otUnion (st1.setLps newA newA) newA newA).nodes =
          (st1.setLps newA newA).nodes :=
        (otUnionList_frame newA ((st1.setLps newA newA).otCell newA) (st1.setLps newA newA)).1
      have hchmap2 : (otUnion (st1.setLps newA newA) newA newA).chMap = st1.chMap :=
        (otUnionList_frame newA ((st1.setLps newA newA).otCell newA) (st1.setLps newA newA)).2.1
      have hilmap2 : (otUnion (st1.setLps newA newA) newA newA).ilMap = st.ilMap ++ [[]] :=
        (otUnionList_frame newA ((st1.setLps newA newA).otCell newA) (st1.setLps newA newA)).2.2
      have hnode2 : ∀ x, (otUnion (st1.setLps newA newA) newA newA).node x =
          (st1.setLps newA newA).node x := by
        intro x
        unfold STrie.node
        rw [hfrn]
      have hlps2N : ((otUnion (st1.setLps newA newA) newA newA).node newA).lps = some newA := by
        rw [hnode2 newA, lps_setLps,
          if_pos ⟨rfl, by rw [hlen1]; exact Nat.lt_succ_self newA⟩]
      have hmaps2N : ((otUnion (st1.setLps newA newA) newA newA).node newA).mapsAt = newA := by
        rw [hnode2 newA, mapsAt_setLps, hnode1_new]
      have hillen2 : (otUnion (st1.setLps newA newA) newA newA).ilMap.length = newA + 1 := by
        rw [hilmap2, List.length_append, hillen, hnewA]
        rfl
      have hpois3 : Pois ((otUnion (st1.setLps newA newA) newA newA).putIl newA newA) newA := by
        refine ⟨hnA0, ?_, ?_, ?_, ?_, ?_, ?_, ?_, ?_⟩
        · rw [length_putIl, hfrn, length_setLps, hlen1]
          exact Nat.lt_succ_self newA
        · intro x
          rw [node_putIl, hnode2 x, rootA_setLps]
          exact hrootA1 x
        · rw [node_putIl]
          exact hlps2N
        · rw [node_putIl]
          exact hmaps2N
        · rw [ilMapGetD_putIl,
            if_pos ⟨hmaps2N, by rw [hmaps2N, hillen2]; exact Nat.lt_succ_self newA⟩]
          exact insertSetN_self _ newA
        · rw [chMap_putIl, hchmap2, hst1, chMapGetD_putCh,
            if_neg (fun hco => Nat.ne_of_lt hjlt' (hmaps0a.symm.trans hco.1)),
            hst0, chMapGetD_alloc]
          exact List.getD_eq_default _ _ (by rw [hchlen])
        · rw [length_putIl, hfrn, length_setLps, hlen1, chMap_putIl, hchmap2, hst1,
            length_chMap_putCh, hch0len]
        · rw [length_ilMap_putIl, hillen2, length_putIl, hfrn, length_setLps, hlen1]
      rw [hlps2N] at h
      dsimp only at h
      rcases hcif : completeInverseFn
          ((otUnion (st1.setLps newA newA) newA newA).putIl newA newA) a newA c (f + 1)
        with _ | st4
      · rw [hcif] at h
        dsimp only at h
        exact Option.noConfusion h
      · rw [hcif] at h
        dsimp only at h
        have h2 : st4 = st' ∧ newA = ch := by
          simp only [Option.some.injEq, Prod.mk.injEq] at h
          exact h
        obtain ⟨rfl, rfl⟩ := h2
        have hcif' : cifGo c newA (f + 1)
            ((otUnion (st1.setLps newA newA) newA newA).putIl newA newA)
            (((otUnion (st1.setLps newA newA) newA newA).putIl newA newA).ilCell a) =
            some st4 := hcif
        exact cifGo_pois c newA (f + 1) _ _ st4 hpois3 hcif'

/-- `enterInTrie`'s walk never returns once its cursor is poisoned: the
final `enterOutput` cycles on the self-linked node, and every further
character only creates another poisoned child. -/
theorem eitGo_pois (t : String) :
    ∀ (cs : List Char) (fuel : Nat) (st : STrie) (g : Nat),
      Pois st g → eitGo fuel t st g cs = none := by
  intro cs
  induction cs with
  | nil =>
    intro fuel st g hp
    show eoGo fuel (st.setWord g) [g] t = none
    refine eoGo_mem_self fuel _ [g] t g (List.mem_cons_self _ _) ?_
    rw [mapsAt_setWord, hp.mapsSelf]
    show g ∈ st.ilMap.getD g []
    exact hp.ilSelf
  | cons c cs ih =>
    intro fuel st g hp
    have hch : st.getCh g c = none := by
      show lookupA (st.chMap.getD ((st.node g).mapsAt) []) c = none
      rw [hp.mapsSelf, hp.chEmpty]
      rfl
    have hnx : st.getChild g c = 0 := by
      unfold STrie.getChild
      rw [hch]
      exact hp.rootA0 g
    have hr : st.isRootN 0 = true := isRootN_zero st (hp.rootA0 0)
    have h1 : eitGo fuel t st g (c :: cs) =
        (if st.isRootN (st.getChild g c) then
          match enterChild st g c fuel with
          | none => none
          | some (st1, ch) => eitGo fuel t st1 ch cs
        else eitGo fuel t st (st.getChild g c) cs) := rfl
    rw [h1, hnx, if_pos hr]
    have hmlt : (st.node g).lps.getD 0 < st.nodes.length := by
      rw [hp.lpsSelf]
      exact hp.glt
    have hmmaps : (st.node ((st.node g).lps.getD 0)).mapsAt = g := by
      rw [hp.lpsSelf]
      exact hp.mapsSelf
    rcases hec : enterChild st g c fuel with _ | pr
    · rfl
    · obtain ⟨st1, ch⟩ := pr
      dsimp only
      exact ih fuel st1 ch
        (enterChild_mk_pois g g c hp.gne hp.glt hp.rootA0 hp.chLen hp.ilLen hp.glt
          hp.mapsSelf hmlt hmmaps fuel st1 ch hec)

/-- A completed `AddSearchTerm` call preserves the invariants: its
value-receiver copy of the root either propagates only output sets (empty
term), or hands the walk to a heap-allocated child, or poisons the trie
and never returns (so the completed-call hypothesis rules that out). -/
theorem AddSearchTerm_sound {st : STrie} {d : Nat → Nat} (hw : Wf st) (hd : DepD st d)
    (t : String) (fuel : Nat) :
    ∀ st', AddSearchTerm st t fuel = some st' → ∃ d2, Wf st' ∧ DepD st' d2 := by
  intro st' h
  have h' : eitGo fuel t (allocNode st (st.node 0)) st.nodes.length t.data = some st' := h
  set copyA := st.nodes.length with hcopyA
  set st0 := allocNode st (st.node 0) with hst0
  have hw0 : Wf st0 := Wf_alloc_fresh hw (st.node 0) (hw.rootA0 0) hw.rootLps
  have hd0 : DepD st0 d := DepD_alloc_copy hw hd
  have hmaps : (st0.node copyA).mapsAt = 0 := by
    rw [hst0, hcopyA, node_alloc_new]
    exact hw.rootMaps
  rcases hdata : t.data with _ | ⟨c, cs⟩
  · rw [hdata] at h'
    have h3 : eoGo fuel (st0.setWord copyA) [copyA] t = some st' := h'
    obtain ⟨hn, hc, hi⟩ := eoGo_frame fuel _ _ _ _ h3
    exact ⟨d, Wf_of_eq (Wf_setWord hw0 copyA) hn hc hi,
      DepD_of_eq (DepD_setWord hd0 copyA) hn hc hi⟩
  · rw [hdata] at h'
    rw [show eitGo fuel t st0 copyA (c :: cs) =
        (if st0.isRootN (st0.getChild copyA c) then
          match enterChild st0 copyA c fuel with
          | none => none
          | some (st1, ch) => eitGo fuel t st1 ch cs
        else eitGo fuel t st0 (st0.getChild copyA c) cs) from rfl] at h'
    have hgc : st0.getCh copyA c = lookupA (st0.chMap.getD 0 []) c := by
      show lookupA (st0.chMap.getD ((st0.node copyA).mapsAt) []) c = _
      rw [hmaps]
    rcases hlk : lookupA (st0.chMap.getD 0 []) c with _ | b
    · have hgcn : st0.getCh copyA c = none := by rw [hgc, hlk]
      have hnx : st0.getChild copyA c = 0 := by
        unfold STrie.getChild
        rw [hgcn]
        exact hw0.rootA0 copyA
      have hr : st0.isRootN 0 = true := isRootN_zero st0 (hw0.rootA0 0)
      rw [hnx, if_pos hr] at h'
      rcases hec : enterChild st0 copyA c fuel with _ | pr
      · rw [hec] at h'
        dsimp only at h'
        exact Option.noConfusion h'
      · obtain ⟨st1, ch⟩ := pr
        rw [hec] at h'
        dsimp only at h'
        have hcoplt : copyA < st0.nodes.length := by
          rw [hst0, length_alloc]
          exact Nat.lt_succ_self _
        have hlpscopy : (st0.node copyA).lps = none := by
          rw [hst0, hcopyA, node_alloc_new]
          exact hw.rootLps
        have hmlt : (st0.node copyA).lps.getD 0 < st0.nodes.length := by
          rw [hlpscopy]
          exact hw0.rootLen
        have hmmaps : (st0.node ((st0.node copyA).lps.getD 0)).mapsAt = 0 := by
          rw [hlpscopy]
          exact hw0.rootMaps
        have hpois : Pois st1 ch :=
          enterChild_mk_pois copyA 0 c (Nat.pos_iff_ne_zero.mp hw.rootLen) hcoplt
            hw0.rootA0 hw0.chLen hw0.ilLen hw0.rootLen hmaps hmlt hmmaps fuel st1 ch hec
        rw [eitGo_pois t cs fuel st1 ch hpois] at h'
        exact Option.noConfusion h'
    · have hgcb : st0.getCh copyA c = some b := by rw [hgc, hlk]
      have hnx : st0.getChild copyA c = b := by
        unfold STrie.getChild
        rw [hgcb]
        rfl
      have hb := hw0.chRaw 0 (c, b) (lookupA_mem hlk)
      have hnb : ¬(st0.isRootN b = true) := by
        rw [isRootN_ne_zero st0 b (hw0.rootA0 b) hb.2]
        exact Bool.false_ne_true
      rw [hnx, if_neg hnb] at h'
      exact eitGo_sound t cs fuel st0 b d hw0 hd0 hb.1 st' h'

/-- Any completed sequence of `AddSearchTerm` calls preserves the
invariants. -/
theorem runAdds_sound :
    ∀ (adds : List String) (fuel : Nat) (st : STrie) (d : Nat → Nat),
      Wf st → DepD st d →
      ∀ st', runAdds st adds fuel = some st' → ∃ d2, Wf st' ∧ DepD st' d2 := by
  intro adds
  induction adds with
  | nil =>
    intro fuel st d hw hd st' h
    cases h
    exact ⟨d, hw, hd⟩
  | cons a rest ih =>
    intro fuel st d hw hd st' h
    simp only [runAdds] at h
    rcases hA : AddSearchTerm st a fuel with _ | st1
    · rw [hA] at h
      exact Option.noConfusion h
    · rw [hA] at h
      dsimp only at h
      obtain ⟨d1, hw1, hd1⟩ := AddSearchTerm_sound hw hd a fuel st1 hA
      exact ih fuel st1 d1 hw1 hd1 st' h

/-- With the invariants in hand, iterating the failure function from any
heap node reaches the root (strong induction on the certified depth). -/
theorem reachRoot_of_inv {st : STrie} {d : Nat → Nat} (hw : Wf st) (hd : DepD st d) :
    ∀ (n a : Nat), d a ≤ n → RealN st a → ∃ k, (st.failureFn)^[k] a = 0 := by
  intro n
  induction n with
  | zero =>
    intro a hda hra
    by_cases ha : a = 0
    · exact ⟨0, ha⟩
    · exact absurd (Nat.le_trans (hd.posD a hra ha) hda) (Nat.not_succ_le_zero 0)
  | succ n ih =>
    intro a hda hra
    by_cases ha : a = 0
    · exact ⟨0, ha⟩
    · rcases hlps : (st.node a).lps with _ | m
      · refine ⟨1, ?_⟩
        show st.failureFn a = 0
        show ((st.node a).lps).getD (st.rootOf a) = 0
        rw [hlps]
        exact hw.rootA0 a
      · have hm : st.failureFn a = m := by
          show ((st.node a).lps).getD (st.rootOf a) = m
          rw [hlps]
          rfl
        have hrm : RealN st m := hw.lpsReal a m hlps
        have hdm : d m ≤ n := Nat.lt_succ_iff.mp (Nat.lt_of_lt_of_le (hd.lpsD a m hra hlps) hda)
        obtain ⟨k, hk⟩ := ih m hdm hrm
        refine ⟨k + 1, ?_⟩
        rw [Function.iterate_succ_apply, hm]
        exact hk

/-- C5.  Failure-link forest: after `New` and after every completed
`AddSearchTerm` call, there is a depth certificate assigning the root
depth 0 and each child one more than its parent, under which every
non-root heap node's failure link resolves strictly shallower and is
never the node itself, and iterating the failure function from any heap
node reaches the root — the failure relation is a forest rooted at the
root.  (Calls of `AddSearchTerm` that never return — see C4 — are not
"after a call" states and are excluded by the completed-run
hypothesis.) -/
theorem C5_failure_link_forest (terms adds : List String) (fuel : Nat) (st : STrie)
    (h : (New terms fuel).bind (fun s => runAdds s adds fuel) = some st) :
    ∃ d : Nat → Nat, d 0 = 0 ∧
      (∀ a, RealN st a → ∀ p ∈ st.chCell a, d p.2 = d a + 1) ∧
      (∀ a, RealN st a → a ≠ 0 → d (st.failureFn a) < d a ∧ st.failureFn a ≠ a) ∧
      (∀ a, RealN st a → ∃ k, (st.failureFn)^[k] a = 0) := by
  rcases hN : New terms fuel with _ | st1
  · rw [hN] at h
    exact Option.noConfusion h
  · rw [hN] at h
    have h1 : runAdds st1 adds fuel = some st := h
    obtain ⟨d1, hw1, hd1⟩ := New_sound terms fuel st1 hN
    obtain ⟨d, hw, hd⟩ := runAdds_sound adds fuel st1 d1 hw1 hd1 st h1
    refine ⟨d, hd.d0, hd.chD, ?_, ?_⟩
    · intro a ha hane
      have hfd : d (st.failureFn a) < d a := by
        rcases hlps : (st.node a).lps with _ | m
        · have hf0 : st.failureFn a = 0 := by
            show ((st.node a).lps).getD (st.rootOf a) = 0
            rw [hlps]
            exact hw.rootA0 a
          rw [hf0, hd.d0]
          exact hd.posD a ha hane
        · have hfm : st.failureFn a = m := by
            show ((st.node a).lps).getD (st.rootOf a) = m
            rw [hlps]
            rfl
          rw [hfm]
          exact hd.lpsD a m ha hlps
      refine ⟨hfd, fun he => ?_⟩
      rw [he] at hfd
      exact lt_irrefl _ hfd
    · intro a ha
      exact reachRoot_of_inv hw hd (d a) a (Nat.le_refl _) ha

/-- C5 witness: the automaton `New(["a","can"])` (with no further adds)
satisfies the failure-forest property; the hypothesis evaluates by
reduction. -/
theorem C5_failure_link_forest_witness :
    ∃ d : Nat → Nat, d 0 = 0 ∧
      (∀ a, RealN trieAcan a → ∀ p ∈ trieAcan.chCell a, d p.2 = d a + 1) ∧
      (∀ a, RealN trieAcan a → a ≠ 0 →
        d (trieAcan.failureFn a) < d a ∧ trieAcan.failureFn a ≠ a) ∧
      (∀ a, RealN trieAcan a → ∃ k, (trieAcan.failureFn)^[k] a = 0) :=
  C5_failure_link_forest ["a", "can"] [] 100 trieAcan rfl

/-- C6.  The worked scenario: `New(["a","can"])`, then `AddSearchTerm("an")`,
then a search over `"you can do it!"` (every character one byte wide)
emits exactly the matches `{"a",[5,6)}`, `{"can",[4,7)}`, `{"an",[5,7)}`
and no others (the list below is the full output; the claim reads it as a
set, order within offset 7 being irrelevant). -/
theorem C6_worked_scenario :
    New ["a", "can"] 100 = some trieAcan ∧
    AddSearchTerm trieAcan "an" 100 = some trieAcanAn ∧
    Search trieAcanAn 100 (okStream "you can do it!") =
      some [⟨"a", (5, 6)⟩, ⟨"can", (4, 7)⟩, ⟨"an", (5, 7)⟩] :=
  ⟨rfl, rfl, rfl⟩

end Multisearch
